import Mathlib

/-!
A verification development for the LoAT simplification-and-complexity core.

The definitions below are shallow embeddings of the C++ sources:
- `src/expr/relation.cpp` (inequality normalization),
- `src/itrs/itrs.cpp` (variable-name escaping),
- `src/analysis/analysis.cpp` (`Analysis::run`, `ensureProperInitialLocation`,
  `getMaxRuntime`, `removeConstantPathsImpl`, `getMaxPartialResult`),
- `src/meter/recurrence.cpp` (`dependencyOrder`, `calcIteratedUpdate`,
  `calcIteratedCost`, `calcIterated`).

External collaborators that are not part of the sources (the PURRS recurrence
solver, the asymptotic-bound prover `AsymptoticBound::determineComplexity`,
the chaining helper `Chaining::chainRules`, and the algebra library's
`getComplexity`/`isInfSymbol`/temp-variable queries) are taken as function
parameters or as abstract per-rule oracle fields.  The timeout oracles
`Timeout::soft` and `Timeout::hard` are modelled as returning `false` (no
timeout), which is the only case the claims below exercise.  Machine integers
do not occur in the modelled paths (GiNaC/CLN integers are arbitrary
precision), so `Int`/`Nat` are used directly.
-/

namespace LoAT

/-!
Complexity classes.  Modelled from the spec: the `Complexity` class itself
(complexity.h) is not among the given sources.  The spec (§3) defines the
total order `Unknown < Const < Poly d < Exp < Infty`, with
`Poly d₁ < Poly d₂ ↔ d₁ < d₂`.
-/

inductive Complexity where
  | Unknown : Complexity
  | Const : Complexity
  | Poly : Nat → Complexity
  | Exp : Complexity
  | Infty : Complexity
deriving DecidableEq

namespace Complexity

/-- Rank of the constructor in the total order. -/
def level : Complexity → Nat
  | Unknown => 0
  | Const => 1
  | Poly _ => 2
  | Exp => 3
  | Infty => 4

/-- Polynomial degree; `0` for the non-polynomial classes. -/
def deg : Complexity → Nat
  | Poly d => d
  | _ => 0

/-- Strict order (the C++ `operator<`). -/
def lt (a b : Complexity) : Bool :=
  a.level < b.level || (a.level = b.level && a.deg < b.deg)

/-- Non-strict order (the C++ `operator<=`). -/
def le (a b : Complexity) : Bool :=
  a.level < b.level || (a.level = b.level && a.deg ≤ b.deg)

/-- `std::max` on complexities: `(a < b) ? b : a`. -/
def cmax (a b : Complexity) : Complexity :=
  if lt a b then b else a

end Complexity

/-!
Expressions.  A small integer-arithmetic term language standing in for the
GiNaC expressions used throughout the sources.  `nvar` is the distinguished
PURRS symbol `n` (the iteration counter of a recurrence); program variables
are indices managed by the `VariableManager`.
-/

inductive Exprn where
  | cst : Int → Exprn
  | var : Nat → Exprn
  | nvar : Exprn
  | add : Exprn → Exprn → Exprn
  | sub : Exprn → Exprn → Exprn
  | mul : Exprn → Exprn → Exprn
deriving DecidableEq

namespace Exprn

/-- Evaluation: `nv` interprets the recurrence counter `n`, `σ` the program
variables. -/
def eval (nv : Int) (σ : Nat → Int) : Exprn → Int
  | cst k => k
  | var v => σ v
  | nvar => nv
  | add a b => eval nv σ a + eval nv σ b
  | sub a b => eval nv σ a - eval nv σ b
  | mul a b => eval nv σ a * eval nv σ b

/-- Program variables occurring in the term (GiNaC `getVariableNames`,
translated to indices by the variable manager). -/
def pvars : Exprn → List Nat
  | cst _ => []
  | var v => [v]
  | nvar => []
  | add a b => pvars a ++ pvars b
  | sub a b => pvars a ++ pvars b
  | mul a b => pvars a ++ pvars b

/-- Whether the PURRS counter `n` occurs. -/
def hasN : Exprn → Bool
  | cst _ => false
  | var _ => false
  | nvar => true
  | add a b => hasN a || hasN b
  | sub a b => hasN a || hasN b
  | mul a b => hasN a || hasN b

/-- Simultaneous substitution of program variables (GiNaC `subs` with an
`exmap` keyed by variable symbols). -/
def subsF (σ : Nat → Option Exprn) : Exprn → Exprn
  | cst k => cst k
  | var v => match σ v with
    | some e => e
    | none => var v
  | nvar => nvar
  | add a b => add (subsF σ a) (subsF σ b)
  | sub a b => sub (subsF σ a) (subsF σ b)
  | mul a b => mul (subsF σ a) (subsF σ b)

/-- Substitution for the PURRS counter `n` (GiNaC `subs(ginacN == r)`). -/
def subsN (r : Exprn) : Exprn → Exprn
  | cst k => cst k
  | var v => var v
  | nvar => r
  | add a b => add (subsN r a) (subsN r b)
  | sub a b => sub (subsN r a) (subsN r b)
  | mul a b => mul (subsN r a) (subsN r b)

/-- Substitution by an association list, as applied for
`knownPreRecurrences` (keys are distinct variable indices). -/
def subsMap (m : List (Nat × Exprn)) (e : Exprn) : Exprn :=
  subsF (fun v => (m.find? (fun p => p.1 = v)).map Prod.snd) e

end Exprn

/-!
Relations (`src/expr/relation.cpp`).  A `Rel` is a binary GiNaC relational
over expressions.  `!=` relations are excluded by `Relation::isRelation` in
the source and never reach the functions modelled below, so the operator type
has no not-equal constructor.
-/

inductive RelOp where
  | eq | lt | le | gt | ge
deriving DecidableEq

structure Rel where
  lhs : Exprn
  op : RelOp
  rhs : Exprn
deriving DecidableEq

namespace Rel

/-- Truth of a relation in an integer valuation (`nv` interprets the
counter `n`). -/
def holds (nv : Int) (σ : Nat → Int) (r : Rel) : Prop :=
  match r.op with
  | RelOp.eq => r.lhs.eval nv σ = r.rhs.eval nv σ
  | RelOp.lt => r.lhs.eval nv σ < r.rhs.eval nv σ
  | RelOp.le => r.lhs.eval nv σ ≤ r.rhs.eval nv σ
  | RelOp.gt => r.lhs.eval nv σ > r.rhs.eval nv σ
  | RelOp.ge => r.lhs.eval nv σ ≥ r.rhs.eval nv σ

instance (nv : Int) (σ : Nat → Int) (r : Rel) : Decidable (holds nv σ r) := by
  unfold holds
  cases r.op <;> infer_instance

end Rel

namespace Relation

/-- `Relation::isEquality` (on relations, which exclude `!=`). -/
def isEquality (r : Rel) : Bool := r.op = RelOp.eq

/-- `Relation::isInequality`: a relation other than `==` (and not `!=`). -/
def isInequality (r : Rel) : Bool := !isEquality r

/-- `Relation::isNormalizedInequality`: an inequality of the form `e > 0`
(the GiNaC check `rhs().is_zero()` on the literal right-hand side). -/
def isNormalizedInequality (r : Rel) : Bool :=
  isInequality r && r.op = RelOp.gt && r.rhs = Exprn.cst 0

/-- `Relation::transformInequalityGreater`: flip `<`/`<=`, then turn `>=`
into `>` by adding `1` to the left-hand side (integer arithmetic). -/
def transformInequalityGreater (r : Rel) : Rel :=
  let r1 : Rel :=
    if r.op = RelOp.lt then ⟨r.rhs, RelOp.gt, r.lhs⟩
    else if r.op = RelOp.le then ⟨r.rhs, RelOp.ge, r.lhs⟩
    else r
  if r1.op = RelOp.ge then ⟨Exprn.add r1.lhs (Exprn.cst 1), RelOp.gt, r1.rhs⟩ else r1

/-- `Relation::normalizeInequality`: bring an inequality into the form
`lhs - rhs > 0`. -/
def normalizeInequality (r : Rel) : Rel :=
  let greater := transformInequalityGreater r
  ⟨Exprn.sub greater.lhs greater.rhs, RelOp.gt, Exprn.cst 0⟩

end Relation

/-!
Variable-name escaping (`src/itrs/itrs.cpp`, `escapeVarname`).  The C
character classification functions are those of the "C" locale on ASCII
input.
-/

namespace ITRS

/-- C `isalpha` on ASCII characters. -/
def c_isalpha (c : Char) : Bool :=
  ('A' ≤ c && c ≤ 'Z') || ('a' ≤ c && c ≤ 'z')

/-- C `isalnum` on ASCII characters. -/
def c_isalnum (c : Char) : Bool :=
  c_isalpha c || ('0' ≤ c && c ≤ '9')

/-- The per-character body of `escapeVarname`'s loop: replace `I` by `Q`
(to avoid the GiNaC imaginary unit), then replace anything non-alphanumeric
by `_`. -/
def escapeChar (c : Char) : Char :=
  let c1 := if c = 'I' then 'Q' else c
  if !c_isalnum c1 then '_' else c1

/-- `escapeVarname`: escape every character, then prepend `q` if the name
does not start with a letter.  The source asserts the name is non-empty. -/
def escapeVarname (name : List Char) : List Char :=
  let escaped := name.map escapeChar
  match escaped with
  | [] => escaped
  | c :: _ => if !c_isalpha c then 'q' :: escaped else escaped

end ITRS

/-!
The rule store.  `ITSProblem` and `Rule` (its/itsproblem.h, its/rule.h) are
not among the given sources; their interface is modelled from the spec
(§3/§4.1): rules carry a source location, one or more target locations with
updates, a guard and a cost; the store hands out monotonically increasing
rule indices and location indices.  The cost-related oracle fields `cpx`
(`cost.getComplexity()`), `isInfSym` (`cost.isInfSymbol()`) and `hasTempRaw`
(`cost.hasVariableWith(isTempVar)`) abstract the external algebra library's
estimators for the rule's cost.
-/

structure GRule where
  lhs : Nat
  rhss : List Nat
  guard : List Rel
  cost : Exprn
  cpx : Complexity
  isInfSym : Bool
  hasTempRaw : Bool
deriving DecidableEq

structure ITSStore where
  locations : List Nat
  nextLoc : Nat
  rules : List (Nat × GRule)
  nextRule : Nat
  initial : Nat
deriving DecidableEq

namespace ITSStore

/-- `ITSProblem::addLocation`: mint a fresh location index. -/
def addLocation (its : ITSStore) : Nat × ITSStore :=
  (its.nextLoc,
   { its with locations := its.locations ++ [its.nextLoc], nextLoc := its.nextLoc + 1 })

/-- `ITSProblem::addRule`: append under a fresh, monotonically increasing
rule index. -/
def addRule (its : ITSStore) (r : GRule) : ITSStore :=
  { its with rules := its.rules ++ [(its.nextRule, r)], nextRule := its.nextRule + 1 }

/-- `ITSProblem::removeRule`. -/
def removeRule (its : ITSStore) (idx : Nat) : ITSStore :=
  { its with rules := its.rules.filter (fun p => p.1 ≠ idx) }

/-- `ITSProblem::setInitialLocation`. -/
def setInitialLocation (its : ITSStore) (l : Nat) : ITSStore :=
  { its with initial := l }

/-- `ITSProblem::hasTransitionsTo`: some rule has `l` among its target
locations. -/
def hasTransitionsTo (its : ITSStore) (l : Nat) : Bool :=
  its.rules.any (fun p => p.2.rhss.contains l)

/-- `ITSProblem::getTransitionsFrom`, with each index paired with its rule
(the C++ returns the indices, in ascending index order, and callers fetch
the rules via `getRule`). -/
def getTransitionsFrom (its : ITSStore) (l : Nat) : List (Nat × GRule) :=
  its.rules.filter (fun p => p.2.lhs = l)

/-- `ITSProblem::getTransitionsFromTo`. -/
def getTransitionsFromTo (its : ITSStore) (a b : Nat) : List (Nat × GRule) :=
  its.rules.filter (fun p => p.2.lhs = a && p.2.rhss.contains b)

/-- `ITSProblem::getSuccessorLocations`: the C++ returns an `std::set` of
locations, iterated in ascending order; the store keeps `locations` in
ascending creation order, so filtering it reproduces that order. -/
def getSuccessorLocations (its : ITSStore) (l : Nat) : List Nat :=
  its.locations.filter (fun m => its.rules.any (fun p => p.2.lhs = l && p.2.rhss.contains m))

/-- Store well-formedness (spec §3, "Invariants"): the initial location and
every rule's target locations refer to already-minted location indices. -/
def locWF (its : ITSStore) : Prop :=
  its.initial < its.nextLoc ∧
  ∀ p ∈ its.rules, ∀ t ∈ p.2.rhss, t < its.nextLoc

instance (its : ITSStore) : Decidable (locWF its) := by
  unfold locWF
  infer_instance

end ITSStore

/-!
Results of the analysis and of the external asymptotic-bound prover.
`RuntimeResult` is modelled from the spec (§3); its default constructor
gives the `Unknown` complexity ("defaults to unknown complexity",
analysis.cpp line 80), and the default bound expression is modelled as `0`.
`AsymptoticBound::determineComplexity` is an external collaborator; it is
modelled as an arbitrary function `Prover` of the guard and cost.
-/

structure CheckResult where
  cpx : Complexity
  cost : Exprn
  reducedCpx : Complexity
deriving DecidableEq

structure RuntimeResult where
  cpx : Complexity
  bound : Exprn
  reducedCpx : Complexity
  guard : List Rel
deriving DecidableEq

/-- The default-constructed `RuntimeResult`. -/
def initRuntimeResult : RuntimeResult :=
  ⟨Complexity.Unknown, Exprn.cst 0, Complexity.Unknown, []⟩

/-- The interface of `AsymptoticBound::determineComplexity(its, guard, cost,
final=true)`, abstracted over its guard and cost arguments. -/
def Prover := List Rel → Exprn → CheckResult

/-- A concrete four-location store exercising `removeConstantPathsImpl`:
rule `0`: `0 → 1` with constant cost, rule `1`: `1 → 3` with cost `x0` of
complexity `Poly 1`, rule `2`: `0 → 2` with constant cost, rule `3`:
`2 → 1` with constant cost.  Location `1` is reachable both directly and
via `2`. -/
def exampleStore8 : ITSStore :=
  ⟨[0, 1, 2, 3], 4,
   [(0, ⟨0, [1], [], Exprn.cst 1, Complexity.Const, false, false⟩),
    (1, ⟨1, [3], [], Exprn.var 0, Complexity.Poly 1, false, false⟩),
    (2, ⟨0, [2], [], Exprn.cst 1, Complexity.Const, false, false⟩),
    (3, ⟨2, [1], [], Exprn.cst 1, Complexity.Const, false, false⟩)],
   4, 0⟩

namespace Analysis

open ITSStore

/-- The C++ `hasTempVar` computation in `getMaxRuntime` and
`getMaxPartialResult`: `!cost.isInfSymbol() && cost.hasVariableWith(isTempVar)`. -/
def hasTempVar (r : GRule) : Bool :=
  !r.isInfSym && r.hasTempRaw

/-!
`Analysis::getMaxRuntime` (analysis.cpp lines 457-523), for the normal build
(`FINAL_INFINITY_CHECK` defined) and with `Timeout::hard()` modelled as
`false`.  The returned list of indices records, as ghost instrumentation,
for which rules the external prover was invoked.
-/

def getMaxRuntimeGo (prover : Prover) :
    List (Nat × GRule) → RuntimeResult → List Nat → RuntimeResult × List Nat
  | [], res, inv => (res, inv.reverse)
  | (i, r) :: rest, res, inv =>
    if Complexity.le r.cpx res.cpx && !hasTempVar r then
      getMaxRuntimeGo prover rest res inv
    else
      let checkRes := prover r.guard r.cost
      if Complexity.lt res.cpx checkRes.cpx then
        let res' : RuntimeResult := ⟨checkRes.cpx, checkRes.cost, checkRes.reducedCpx, r.guard⟩
        if Complexity.le Complexity.Infty res'.cpx then (res', (i :: inv).reverse)
        else getMaxRuntimeGo prover rest res' (i :: inv)
      else getMaxRuntimeGo prover rest res (i :: inv)

/-- `Analysis::getMaxRuntime` scans the rules outgoing from the initial
location, in rule-index order. -/
def getMaxRuntime (prover : Prover) (its : ITSStore) : RuntimeResult × List Nat :=
  getMaxRuntimeGo prover (getTransitionsFrom its its.initial) initRuntimeResult []

/-!
Claim-shaped reformulation of the `getMaxRuntime` scan, written from the
spec's words (§4.6): the prover is invoked iff the rule's cost complexity
exceeds the current best or the cost mentions a temporary variable; the best
is replaced only by a strictly greater prover result; the scan stops
immediately once the best reaches `Infty`.
-/

def runtimeScanSpec (prover : Prover) :
    List (Nat × GRule) → RuntimeResult → RuntimeResult × List Nat
  | [], res => (res, [])
  | (i, r) :: rest, res =>
    if Complexity.lt res.cpx r.cpx || hasTempVar r then
      let checkRes := prover r.guard r.cost
      let res' : RuntimeResult :=
        if Complexity.lt res.cpx checkRes.cpx then
          ⟨checkRes.cpx, checkRes.cost, checkRes.reducedCpx, r.guard⟩
        else res
      if res'.cpx = Complexity.Infty then (res', [i])
      else
        let rec' := runtimeScanSpec prover rest res'
        (rec'.1, i :: rec'.2)
    else runtimeScanSpec prover rest res

/-!
`Analysis::run` (analysis.cpp lines 58-232).  The pre-processing and the
simplification loop in the middle mutate the store through components that
are not part of the given sources (Pruning, Accelerator, Chaining); for the
final-result claims their effect is abstracted into the `fullySimplified`
flag and the two possible extraction results, which is all the tail of the
function inspects.
-/

def runResult (isEmptyITS fullySimplified : Bool)
    (maxRuntimeRes maxPartialRes : RuntimeResult) : RuntimeResult :=
  if isEmptyITS then initRuntimeResult
  else
    let runtime := if fullySimplified then maxRuntimeRes else maxPartialRes
    if runtime.cpx = Complexity.Unknown then
      { runtime with cpx := Complexity.Const, bound := Exprn.cst 1, guard := [] }
    else runtime

/-!
`Analysis::ensureProperInitialLocation` (analysis.cpp lines 239-247).
`Rule::dummyRule` is not among the given sources; modelled from the spec:
"a trivially-true zero-cost rule `S → old_initial`" (empty guard, cost `0`).
-/

def dummyRule (lhs rhs : Nat) : GRule :=
  { lhs := lhs, rhss := [rhs], guard := [], cost := Exprn.cst 0,
    cpx := Complexity.Const, isInfSym := false, hasTempRaw := false }

def ensureProperInitialLocation (its : ITSStore) : Bool × ITSStore :=
  if hasTransitionsTo its its.initial then
    let (newStart, its1) := addLocation its
    let its2 := addRule its1 (dummyRule newStart its1.initial)
    (true, setInitialLocation its2 newStart)
  else (false, its)

/-!
`removeConstantPathsImpl` (analysis.cpp lines 534-553), with
`Timeout::hard()` modelled as `false`.  The `visited` set is threaded as a
list; the successor set is iterated as the snapshot the C++ call
`getSuccessorLocations` returns by value.  The recursion is driven by a
fuel counter bounding the recursion depth; `removeConstantPathsAfterTimeout`
supplies more fuel than there are locations, so the `0` case (which leaves
the store unchanged and reports `false`) is never reached there.
-/

def removeConstantPathsSuccs (go : ITSStore → Nat → List Nat → ITSStore × List Nat × Bool)
    (curr : Nat) :
    List Nat → ITSStore → List Nat → ITSStore × List Nat
  | [], its, visited => (its, visited)
  | next :: rest, its, visited =>
    let r := go its next visited
    let its3 :=
      if r.2.2 then
        ((getTransitionsFromTo r.1 curr next).filter
            (fun p => Complexity.le p.2.cpx Complexity.Const)).foldl
          (fun s p => removeRule s p.1) r.1
      else r.1
    removeConstantPathsSuccs go curr rest its3 r.2.1

def removeConstantPathsImpl : Nat → ITSStore → Nat → List Nat → ITSStore × List Nat × Bool
  | 0, its, _, visited => (its, visited, false)
  | fuel + 1, its, curr, visited =>
    if visited.contains curr then (its, visited, true)
    else
      let r := removeConstantPathsSuccs (removeConstantPathsImpl fuel) curr
        (getSuccessorLocations its curr) its (visited ++ [curr])
      (r.1, r.2, (getTransitionsFrom r.1 curr).isEmpty)

/-- `Analysis::removeConstantPathsAfterTimeout`. -/
def removeConstantPathsAfterTimeout (its : ITSStore) : ITSStore :=
  (removeConstantPathsImpl (its.locations.length + 2) its its.initial []).1

/-!
`Analysis::getMaxPartialResult` (analysis.cpp lines 565-636), with both
timeouts modelled as `false`.  `Chaining::chainRules` is an external
collaborator, taken as a parameter `chainO`.  The `while (true)` loop is
driven by a fuel counter (the loop need not terminate when the initial
location always keeps successors); `none` reports fuel exhaustion.  The
third component of the scan result records, as ghost instrumentation, the
rules for which the prover was invoked.
-/

def maxPartialScanGo (prover : Prover) :
    List (Nat × GRule) → RuntimeResult → List Nat → RuntimeResult × Bool × List Nat
  | [], res, inv => (res, false, inv.reverse)
  | (i, r) :: rest, res, inv =>
    if Complexity.le r.cpx (Complexity.cmax res.cpx Complexity.Const) && !hasTempVar r then
      maxPartialScanGo prover rest res inv
    else
      let checkRes := prover r.guard r.cost
      if Complexity.lt res.cpx checkRes.cpx then
        let res' : RuntimeResult := ⟨checkRes.cpx, checkRes.cost, checkRes.reducedCpx, r.guard⟩
        if Complexity.le Complexity.Infty res'.cpx then (res', true, (i :: inv).reverse)
        else maxPartialScanGo prover rest res' (i :: inv)
      else maxPartialScanGo prover rest res (i :: inv)

/-- The inner `for (TransIdx second : ...)` loop: chain `first` with every
rule leaving `succ`, adding each successful chain; then delete `first`. -/
def chainFirstRule (chainO : GRule → GRule → Option GRule) (succ : Nat)
    (its : ITSStore) (first : Nat × GRule) : ITSStore :=
  let its' := (getTransitionsFrom its succ).foldl
    (fun s p =>
      match chainO first.2 p.2 with
      | some r => addRule s r
      | none => s) its
  removeRule its' first.1

/-- The `for (TransIdx first : ...)` loop over the snapshot of rules from
the initial location to `succ`. -/
def chainSucc (chainO : GRule → GRule → Option GRule) (initial : Nat)
    (its : ITSStore) (succ : Nat) : ITSStore :=
  (getTransitionsFromTo its initial succ).foldl (chainFirstRule chainO succ) its

/-- One level of chaining from the start: iterate over the snapshot of the
initial location's successors. -/
def chainFromStart (chainO : GRule → GRule → Option GRule) (initial : Nat)
    (its : ITSStore) (succs : List Nat) : ITSStore :=
  succs.foldl (chainSucc chainO initial) its

def getMaxPartialGo (prover : Prover) (chainO : GRule → GRule → Option GRule)
    (initial : Nat) :
    Nat → ITSStore → RuntimeResult → Option (RuntimeResult × ITSStore)
  | 0, _, _ => none
  | fuel + 1, its, res =>
    let scanned := maxPartialScanGo prover (getTransitionsFrom its initial) res []
    if scanned.2.1 then some (scanned.1, its)
    else
      let succs := getSuccessorLocations its initial
      if succs.isEmpty then some (scanned.1, its)
      else getMaxPartialGo prover chainO initial fuel
        (chainFromStart chainO initial its succs) scanned.1

/-- `Analysis::getMaxPartialResult`. -/
def getMaxPartialResult (prover : Prover) (chainO : GRule → GRule → Option GRule)
    (fuel : Nat) (its : ITSStore) : Option (RuntimeResult × ITSStore) :=
  getMaxPartialGo prover chainO its.initial fuel its initRuntimeResult

/-!
Claim-shaped reformulation of the `getMaxPartialResult` scan: identical to
the `getMaxRuntime` scan description except that a rule is skipped when its
cost complexity does not exceed `max(current best, Const)`.
-/

def maxPartialScanSpec (prover : Prover) :
    List (Nat × GRule) → RuntimeResult → RuntimeResult × Bool × List Nat
  | [], res => (res, false, [])
  | (i, r) :: rest, res =>
    if Complexity.lt (Complexity.cmax res.cpx Complexity.Const) r.cpx || hasTempVar r then
      let checkRes := prover r.guard r.cost
      let res' : RuntimeResult :=
        if Complexity.lt res.cpx checkRes.cpx then
          ⟨checkRes.cpx, checkRes.cost, checkRes.reducedCpx, r.guard⟩
        else res
      if res'.cpx = Complexity.Infty then (res', true, [i])
      else
        let rec' := maxPartialScanSpec prover rest res'
        (rec'.1, rec'.2.1, i :: rec'.2.2)
    else maxPartialScanSpec prover rest res

/-- Claim-shaped loop of `getMaxPartialResult`: repeat (a) the scan, (b) one
level of chaining from the start; stop when the scan reaches `Infty` or the
initial location has no successors. -/
def maxPartialLoopSpec (prover : Prover) (chainO : GRule → GRule → Option GRule)
    (initial : Nat) :
    Nat → ITSStore → RuntimeResult → Option (RuntimeResult × ITSStore)
  | 0, _, _ => none
  | fuel + 1, its, res =>
    let scanned := maxPartialScanSpec prover (getTransitionsFrom its initial) res
    if scanned.2.1 then some (scanned.1, its)
    else if (getSuccessorLocations its initial).isEmpty then some (scanned.1, its)
    else maxPartialLoopSpec prover chainO initial fuel
      (chainFromStart chainO initial its (getSuccessorLocations its initial)) scanned.1

end Analysis

/-!
The metering engine's recurrence component (`src/meter/recurrence.cpp`).
An `UpdateMap` is an association list standing in for the
`std::map<VariableIdx, Expression>`; entries are iterated in list order (the
C++ iterates in ascending key order) and keys are unique in every map built
by the callers.
-/

namespace Recurrence

abbrev UpdateMap := List (Nat × Exprn)

/-- The keys of an update map. -/
def keys (u : UpdateMap) : List Nat := u.map Prod.fst

/-- The dependency test inside `dependencyOrder`'s inner loop: all variables
on the update's right-hand side are either the updated variable itself, not
updated at all, or already processed. -/
def depsResolved (ks : List Nat) (ordered : List Nat) (v : Nat) (rhs : Exprn) : Bool :=
  (Exprn.pvars rhs).all (fun w => w = v || !ks.contains w || ordered.contains w)

/-- The inner `for (auto up : update)` loop of `dependencyOrder`: scan the
entries once, appending each entry whose dependencies are all resolved; the
`orderedVars` set grows during the scan. -/
def depPassGo (ks : List Nat) :
    List (Nat × Exprn) → List Nat → List Nat → Bool → List Nat × List Nat × Bool
  | [], ordering, ordered, changed => (ordering, ordered, changed)
  | (v, rhs) :: rest, ordering, ordered, changed =>
    if ordered.contains v then depPassGo ks rest ordering ordered changed
    else if depsResolved ks ordered v rhs then
      depPassGo ks rest (ordering ++ [v]) (ordered ++ [v]) true
    else depPassGo ks rest ordering ordered changed

def depPass (u : UpdateMap) (ordering ordered : List Nat) : List Nat × List Nat × Bool :=
  depPassGo (keys u) u ordering ordered false

/-- The cycle-breaking step of `dependencyOrder` (the `changed == false`
branch): the first unresolved variable becomes the representative `target`;
every other unresolved variable is equated with it in `addGuard` and
substituted by it in all update right-hand sides. -/
def breakCycle (u : UpdateMap) (ordered : List Nat) (addGuard : List Rel) :
    UpdateMap × List Rel :=
  match (keys u).filter (fun v => !ordered.contains v) with
  | [] => (u, addGuard)
  | t :: others =>
    let addGuard' := addGuard ++
      others.map (fun o => Rel.mk (Exprn.var t) RelOp.eq (Exprn.var o))
    let σ := fun w => if others.contains w then some (Exprn.var t) else none
    (u.map (fun p => (p.1, Exprn.subsF σ p.2)), addGuard')

/-- Result of `dependencyOrder`: the ordering, the accumulated `addGuard`,
the (possibly substituted) update map, and whether the `while` loop
completed (`complete = false` only on fuel exhaustion, which
`dependencyOrder`'s fuel choice makes unreachable). -/
structure DepResult where
  ordering : List Nat
  addGuard : List Rel
  update : UpdateMap
  complete : Bool
deriving DecidableEq

/-- The `while (ordering.size() < update.size())` loop of
`dependencyOrder`: scan once; if nothing changed, break the cycle and scan
again. -/
def depLoop : Nat → UpdateMap → List Nat → List Nat → List Rel → DepResult
  | 0, u, ordering, _, addGuard => ⟨ordering, addGuard, u, false⟩
  | fuel + 1, u, ordering, ordered, addGuard =>
    if ordering.length < u.length then
      let p := depPass u ordering ordered
      if p.2.2 then depLoop fuel u p.1 p.2.1 addGuard
      else
        let bc := breakCycle u p.2.1 addGuard
        depLoop fuel bc.1 p.1 p.2.1 bc.2
    else ⟨ordering, addGuard, u, true⟩

/-- `Recurrence::dependencyOrder`.  Two passes per unresolved variable
always suffice (proved below), so the fuel `2·|update| + 1` makes the
embedded loop total. -/
def dependencyOrder (u : UpdateMap) : DepResult :=
  depLoop (2 * u.length + 1) u [] [] []

/-!
The external recurrence solver (PURRS).  Modelled from the spec:
`recurrence.solve(rhs_in_x_n_minus_1, initial_condition) → Option<Expr>` —
the solver is an external collaborator, not part of the sources.  As used
by `findUpdateRecurrence`, the recurrence for the expression `todo` and the
updated variable `target` is `x(n) = todo[target ← x(n-1)]` with initial
condition `x(1) = todo`; as used by `findCostRecurrence`, the recurrence
for the (pre-substituted) cost is `x(n) = x(n-1) + cost` with initial
condition `x(0) = 0`.
-/

def UpdateSolver := Exprn → Nat → Option Exprn

def CostSolver := Exprn → Option Exprn

/-- Conformance of an update-recurrence solver: a returned closed form is
an exact solution — it satisfies the initial condition at `n = 1` and the
recurrence step for `n ≥ 2`. -/
def UpdateSolverConformant (solve : UpdateSolver) : Prop :=
  ∀ todo target g, solve todo target = some g →
    (∀ σ : Nat → Int, g.eval 1 σ = todo.eval 1 σ) ∧
    (∀ k : Int, 2 ≤ k → ∀ σ : Nat → Int,
      g.eval k σ =
        (Exprn.subsF
          (fun v => if v = target then some (Exprn.subsN (Exprn.sub Exprn.nvar (Exprn.cst 1)) g)
                    else none) todo).eval k σ)

/-- Conformance of a cost-recurrence solver: a returned closed form sums the
cost, starting from `0` at `n = 0`. -/
def CostSolverConformant (csolve : CostSolver) : Prop :=
  ∀ cost g, csolve cost = some g →
    (∀ σ : Nat → Int, g.eval 0 σ = 0) ∧
    (∀ k : Int, 1 ≤ k → ∀ σ : Nat → Int, g.eval k σ = g.eval (k - 1) σ + cost.eval k σ)

/-- A closed expression: no program variables and no occurrence of `n`. -/
def isClosedE (e : Exprn) : Bool := e.pvars.isEmpty && !e.hasN

/-- A tiny conformant update solver used to exercise the definitions: it
solves exactly the degenerate recurrences whose right-hand side is closed
(`x(n) = c`), returning the constant itself. -/
def constSolve : UpdateSolver := fun todo _ =>
  if isClosedE todo then some todo else none

/-- A tiny conformant cost solver: it solves only the zero-cost recurrence
`x(n) = x(n-1) + 0`, whose closed form is `0`. -/
def constCostSolve : CostSolver := fun cost =>
  if cost = Exprn.cst 0 then some (Exprn.cst 0) else none

/-!
`Recurrence::calcIteratedUpdate` and `Recurrence::calcIterated`
(recurrence.cpp lines 84-201).  The mutable members `knownPreRecurrences`
and `addGuard` of the `Recurrence` object are threaded explicitly.
-/

structure RecState where
  knownPre : List (Nat × Exprn)
  addGuard : List Rel
deriving DecidableEq

/-- The `for (VariableIdx vi : order)` loop of `calcIteratedUpdate`: for
each variable, substitute the already-known pre-recurrences into its update
right-hand side, solve the recurrence (`findUpdateRecurrence`, with initial
condition `x(1) = todo`), record the pre-recurrence `res[n ← n-1]`, and
store the closed form `res[n ← meterfunc]`.  The `update.at(vi)` lookup
cannot fail (every ordered variable is a key); a missing key is mapped to
failure to keep the function total. -/
def calcIteratedUpdateGo (solve : UpdateSolver) (u : UpdateMap) (meter : Exprn) :
    List Nat → UpdateMap → List (Nat × Exprn) → Option (UpdateMap × List (Nat × Exprn))
  | [], newUpdate, knownPre => some (newUpdate, knownPre)
  | vi :: rest, newUpdate, knownPre =>
    match (u.find? (fun p => p.1 = vi)).map Prod.snd with
    | none => none
    | some rhs =>
      let todo := Exprn.subsMap knownPre rhs
      match solve todo vi with
      | none => none
      | some res =>
        calcIteratedUpdateGo solve u meter rest
          (newUpdate ++ [(vi, Exprn.subsN meter res)])
          (knownPre ++ [(vi, Exprn.subsN (Exprn.sub Exprn.nvar (Exprn.cst 1)) res)])

/-- `Recurrence::calcIteratedUpdate`.  The C++ asserts
`order.size() == update.size()`; the assertion corresponds to the loop
having completed, which the fuel of `dependencyOrder` guarantees. -/
def calcIteratedUpdate (solve : UpdateSolver) (oldUpdate : UpdateMap) (meter : Exprn) :
    Option (UpdateMap × RecState) :=
  let dep := dependencyOrder oldUpdate
  if dep.complete then
    match calcIteratedUpdateGo solve dep.update meter dep.ordering [] [] with
    | some (newUpdate, knownPre) => some (newUpdate, ⟨knownPre, dep.addGuard⟩)
    | none => none
  else none

/-- `Recurrence::findCostRecurrence`: replace variables by their
pre-recurrences, then solve `x(n) = x(n-1) + cost` with `x(0) = 0`. -/
def findCostRecurrence (csolve : CostSolver) (knownPre : List (Nat × Exprn))
    (cost : Exprn) : Option Exprn :=
  csolve (Exprn.subsMap knownPre cost)

/-- `Recurrence::calcIteratedCost`: the closed cost form evaluated at
`n = meterfunc`. -/
def calcIteratedCost (csolve : CostSolver) (knownPre : List (Nat × Exprn))
    (cost meter : Exprn) : Option Exprn :=
  (findCostRecurrence csolve knownPre cost).map (Exprn.subsN meter)

/-- A linear rule as seen by the recurrence component: guard, cost and
update (locations are irrelevant here). -/
structure RRule where
  guard : List Rel
  cost : Exprn
  update : UpdateMap
deriving DecidableEq

/-- `Recurrence::calcIterated`: returns `false` and the unchanged rule when
either recurrence fails; on success replaces update and cost by the closed
forms and appends `addGuard` to the guard. -/
def calcIterated (solve : UpdateSolver) (csolve : CostSolver)
    (rule : RRule) (meter : Exprn) : Bool × RRule :=
  match calcIteratedUpdate solve rule.update meter with
  | none => (false, rule)
  | some (newUpdate, st) =>
    match calcIteratedCost csolve st.knownPre rule.cost meter with
    | none => (false, rule)
    | some newCost =>
      (true, { update := newUpdate, cost := newCost, guard := rule.guard ++ st.addGuard })

end Recurrence

/-!
Helper lemmas about the complexity order and about expressions.
-/

namespace Complexity

theorem not_le_iff_lt (a b : Complexity) : ¬ le a b = true ↔ lt b a = true := by
  simp only [le, lt, Bool.or_eq_true, Bool.and_eq_true, decide_eq_true_eq]
  omega

theorem lt_eq_false_of_le {a b : Complexity} (h : le a b = true) : lt b a = false := by
  rw [← Bool.not_eq_true]
  intro hc
  exact (not_le_iff_lt a b).mpr hc h

theorem lt_of_not_le {a b : Complexity} (h : le a b = false) : lt b a = true :=
  (not_le_iff_lt a b).mp (by rw [h]; simp)

theorem infty_le_iff (a : Complexity) : le Infty a = true ↔ a = Infty := by
  cases a <;> simp [le, level, deg]

theorem lt_infty_of_ne {a : Complexity} (h : a ≠ Infty) : lt a Infty = true := by
  cases a <;> simp_all [lt, level, deg]

theorem ne_infty_of_lt_ne {a b : Complexity} (hb : b ≠ Infty) (_ : lt a b = true) : a ≠ Infty := by
  intro ha
  subst ha
  simp only [lt, Bool.or_eq_true, Bool.and_eq_true, decide_eq_true_eq] at *
  cases b <;> simp_all [level, deg]

end Complexity

namespace Exprn

theorem eval_subsN (nv : Int) (σ : Nat → Int) (r e : Exprn) :
    eval nv σ (subsN r e) = eval (eval nv σ r) σ e := by
  induction e <;> simp [subsN, eval, *]

theorem eval_not_hasN (nv nv' : Int) (σ : Nat → Int) (e : Exprn) (h : hasN e = false) :
    eval nv σ e = eval nv' σ e := by
  induction e <;> simp_all [hasN, eval]

theorem subsF_eq_of_none (σ : Nat → Option Exprn) (e : Exprn)
    (h : ∀ v ∈ pvars e, σ v = none) : subsF σ e = e := by
  induction e with
  | cst k => rfl
  | nvar => rfl
  | var v =>
    have := h v (by simp [pvars])
    simp [subsF, this]
  | add a b iha ihb =>
    simp only [pvars, List.mem_append] at h
    simp [subsF, iha (fun v hv => h v (Or.inl hv)), ihb (fun v hv => h v (Or.inr hv))]
  | sub a b iha ihb =>
    simp only [pvars, List.mem_append] at h
    simp [subsF, iha (fun v hv => h v (Or.inl hv)), ihb (fun v hv => h v (Or.inr hv))]
  | mul a b iha ihb =>
    simp only [pvars, List.mem_append] at h
    simp [subsF, iha (fun v hv => h v (Or.inl hv)), ihb (fun v hv => h v (Or.inr hv))]

theorem subsMap_nil (e : Exprn) : subsMap [] e = e := by
  unfold subsMap
  exact subsF_eq_of_none _ e (fun v _ => rfl)

/-- Variables of a substituted term: each is an untouched original variable
or comes from the image of a substituted one. -/
theorem pvars_subsF (σ : Nat → Option Exprn) (e : Exprn) (w : Nat)
    (hw : w ∈ pvars (subsF σ e)) :
    (w ∈ pvars e ∧ σ w = none) ∨
      ∃ v ∈ pvars e, ∃ img, σ v = some img ∧ w ∈ pvars img := by
  induction e with
  | cst k => simp [subsF, pvars] at hw
  | nvar => simp [subsF, pvars] at hw
  | var v =>
    simp only [subsF] at hw
    cases hσ : σ v with
    | none =>
      rw [hσ] at hw
      simp only [pvars, List.mem_singleton] at hw
      subst hw
      exact Or.inl ⟨List.mem_singleton.mpr rfl, hσ⟩
    | some img =>
      rw [hσ] at hw
      exact Or.inr ⟨v, List.mem_singleton.mpr rfl, img, hσ, hw⟩
  | add a b iha ihb =>
    simp only [subsF, pvars, List.mem_append] at hw ⊢
    rcases hw with h | h
    · rcases iha h with ⟨h1, h2⟩ | ⟨v, hv, img, h1, h2⟩
      · exact Or.inl ⟨Or.inl h1, h2⟩
      · exact Or.inr ⟨v, Or.inl hv, img, h1, h2⟩
    · rcases ihb h with ⟨h1, h2⟩ | ⟨v, hv, img, h1, h2⟩
      · exact Or.inl ⟨Or.inr h1, h2⟩
      · exact Or.inr ⟨v, Or.inr hv, img, h1, h2⟩
  | sub a b iha ihb =>
    simp only [subsF, pvars, List.mem_append] at hw ⊢
    rcases hw with h | h
    · rcases iha h with ⟨h1, h2⟩ | ⟨v, hv, img, h1, h2⟩
      · exact Or.inl ⟨Or.inl h1, h2⟩
      · exact Or.inr ⟨v, Or.inl hv, img, h1, h2⟩
    · rcases ihb h with ⟨h1, h2⟩ | ⟨v, hv, img, h1, h2⟩
      · exact Or.inl ⟨Or.inr h1, h2⟩
      · exact Or.inr ⟨v, Or.inr hv, img, h1, h2⟩
  | mul a b iha ihb =>
    simp only [subsF, pvars, List.mem_append] at hw ⊢
    rcases hw with h | h
    · rcases iha h with ⟨h1, h2⟩ | ⟨v, hv, img, h1, h2⟩
      · exact Or.inl ⟨Or.inl h1, h2⟩
      · exact Or.inr ⟨v, Or.inl hv, img, h1, h2⟩
    · rcases ihb h with ⟨h1, h2⟩ | ⟨v, hv, img, h1, h2⟩
      · exact Or.inl ⟨Or.inr h1, h2⟩
      · exact Or.inr ⟨v, Or.inr hv, img, h1, h2⟩

end Exprn

/-!
Claims C10 and C9.
-/

/-- C10: for every inequality over integer-valued terms,
`Relation::normalizeInequality` returns a normalized inequality — a strict
greater-than comparison with right-hand side `0` — that holds in exactly
those integer valuations in which the input holds (non-strict bounds become
strict by adding `1`). -/
theorem claim_C10 (r : Rel) (h : Relation.isInequality r = true) :
    Relation.isNormalizedInequality (Relation.normalizeInequality r) = true ∧
    ∀ (nv : Int) (σ : Nat → Int),
      Rel.holds nv σ (Relation.normalizeInequality r) ↔ Rel.holds nv σ r := by
  obtain ⟨lhs, op, rhs⟩ := r
  cases op with
  | eq => simp [Relation.isInequality, Relation.isEquality] at h
  | lt =>
    refine ⟨rfl, ?_⟩
    intro nv σ
    simp only [show Relation.normalizeInequality ⟨lhs, RelOp.lt, rhs⟩ =
      ⟨Exprn.sub rhs lhs, RelOp.gt, Exprn.cst 0⟩ from rfl]
    simp only [Rel.holds, Exprn.eval]
    omega
  | le =>
    refine ⟨rfl, ?_⟩
    intro nv σ
    simp only [show Relation.normalizeInequality ⟨lhs, RelOp.le, rhs⟩ =
      ⟨Exprn.sub (Exprn.add rhs (Exprn.cst 1)) lhs, RelOp.gt, Exprn.cst 0⟩ from rfl]
    simp only [Rel.holds, Exprn.eval]
    omega
  | gt =>
    refine ⟨rfl, ?_⟩
    intro nv σ
    simp only [show Relation.normalizeInequality ⟨lhs, RelOp.gt, rhs⟩ =
      ⟨Exprn.sub lhs rhs, RelOp.gt, Exprn.cst 0⟩ from rfl]
    simp only [Rel.holds, Exprn.eval]
    omega
  | ge =>
    refine ⟨rfl, ?_⟩
    intro nv σ
    simp only [show Relation.normalizeInequality ⟨lhs, RelOp.ge, rhs⟩ =
      ⟨Exprn.sub (Exprn.add lhs (Exprn.cst 1)) rhs, RelOp.gt, Exprn.cst 0⟩ from rfl]
    simp only [Rel.holds, Exprn.eval]
    omega

/-- C10 witness: the theorem applied to the inequality `x0 ≥ x1`. -/
theorem claim_C10_witness :
    Relation.isInequality ⟨Exprn.var 0, RelOp.ge, Exprn.var 1⟩ = true ∧
    (Relation.isNormalizedInequality
        (Relation.normalizeInequality ⟨Exprn.var 0, RelOp.ge, Exprn.var 1⟩) = true ∧
      ∀ (nv : Int) (σ : Nat → Int),
        Rel.holds nv σ (Relation.normalizeInequality ⟨Exprn.var 0, RelOp.ge, Exprn.var 1⟩) ↔
          Rel.holds nv σ ⟨Exprn.var 0, RelOp.ge, Exprn.var 1⟩) :=
  ⟨by decide, claim_C10 ⟨Exprn.var 0, RelOp.ge, Exprn.var 1⟩ (by decide)⟩

/-- Per-character specification of `escapeChar`: the result is alphanumeric
or an underscore, and never the letter `I`. -/
theorem escapeChar_spec (c : Char) :
    (ITRS.c_isalnum (ITRS.escapeChar c) || (ITRS.escapeChar c = '_')) = true ∧
    ITRS.escapeChar c ≠ 'I' := by
  unfold ITRS.escapeChar
  by_cases hI : c = 'I'
  · subst hI
    decide
  · simp only [if_neg hI]
    by_cases hA : ITRS.c_isalnum c
    · simp [hA, hI]
    · simp [hA]

/-- C9: for every non-empty variable name, `escapeVarname` replaces every
`I` by `Q` and every non-alphanumeric character by `_`, and prepends `q`
exactly when the first character after these replacements is not a letter;
consequently the result starts with a letter, consists only of
alphanumerics and `_`, and contains no `I`. -/
theorem claim_C9 (name : List Char) (h : name ≠ []) :
    (∃ c rest, ITRS.escapeVarname name = c :: rest ∧ ITRS.c_isalpha c = true) ∧
    (∀ c ∈ ITRS.escapeVarname name,
      (ITRS.c_isalnum c || (c = '_')) = true ∧ c ≠ 'I') ∧
    (ITRS.escapeVarname name = name.map ITRS.escapeChar ∨
      ITRS.escapeVarname name = 'q' :: name.map ITRS.escapeChar) ∧
    ((ITRS.escapeVarname name = 'q' :: name.map ITRS.escapeChar) ↔
      ITRS.c_isalpha ((name.map ITRS.escapeChar).headI) = false) := by
  cases name with
  | nil => exact absurd rfl h
  | cons c0 l0 =>
    have hall : ∀ c ∈ (c0 :: l0).map ITRS.escapeChar,
        (ITRS.c_isalnum c || (c = '_')) = true ∧ c ≠ 'I' := by
      intro c hc
      obtain ⟨a, _, rfl⟩ := List.mem_map.mp hc
      exact escapeChar_spec a
    have hunf : ITRS.escapeVarname (c0 :: l0) =
        if !ITRS.c_isalpha (ITRS.escapeChar c0) then
          'q' :: (c0 :: l0).map ITRS.escapeChar
        else (c0 :: l0).map ITRS.escapeChar := rfl
    have hhead : ((c0 :: l0).map ITRS.escapeChar).headI = ITRS.escapeChar c0 := by
      simp
    by_cases hA : ITRS.c_isalpha (ITRS.escapeChar c0)
    · have hres : ITRS.escapeVarname (c0 :: l0) = (c0 :: l0).map ITRS.escapeChar := by
        rw [hunf, hA]
        rfl
      rw [hres]
      refine ⟨⟨ITRS.escapeChar c0, l0.map ITRS.escapeChar, by simp, hA⟩, hall, Or.inl rfl, ?_⟩
      constructor
      · intro heq
        exact absurd (congrArg List.length heq) (by simp)
      · intro hfalse
        rw [hhead, hA] at hfalse
        cases hfalse
    · have hres : ITRS.escapeVarname (c0 :: l0) = 'q' :: (c0 :: l0).map ITRS.escapeChar := by
        rw [hunf, Bool.eq_false_iff.mpr hA]
        rfl
      rw [hres]
      refine ⟨⟨'q', (c0 :: l0).map ITRS.escapeChar, rfl, by decide⟩, ?_, Or.inr rfl, ?_⟩
      · intro c hc
        rcases List.mem_cons.mp hc with rfl | hc'
        · exact ⟨by decide, by decide⟩
        · exact hall c hc'
      · rw [hhead]
        exact ⟨fun _ => Bool.eq_false_iff.mpr hA, fun _ => rfl⟩

/-- C9 witness: the theorem applied to the name `1I+`. -/
theorem claim_C9_witness :
    (['1', 'I', '+'] : List Char) ≠ [] ∧
    ((∃ c rest, ITRS.escapeVarname ['1', 'I', '+'] = c :: rest ∧ ITRS.c_isalpha c = true) ∧
      (∀ c ∈ ITRS.escapeVarname ['1', 'I', '+'],
        (ITRS.c_isalnum c || (c = '_')) = true ∧ c ≠ 'I') ∧
      (ITRS.escapeVarname ['1', 'I', '+'] = ['1', 'I', '+'].map ITRS.escapeChar ∨
        ITRS.escapeVarname ['1', 'I', '+'] = 'q' :: ['1', 'I', '+'].map ITRS.escapeChar) ∧
      ((ITRS.escapeVarname ['1', 'I', '+'] = 'q' :: ['1', 'I', '+'].map ITRS.escapeChar) ↔
        ITRS.c_isalpha ((['1', 'I', '+'].map ITRS.escapeChar).headI) = false)) :=
  ⟨by decide, claim_C9 ['1', 'I', '+'] (by decide)⟩

/-!
Claim C1.
-/

/-- C1 counterexample: on an empty ITS, `Analysis::run` returns at line 87
before the final `Unknown → Const` coercion, so the result has complexity
`Unknown` (the default `RuntimeResult`), not `Const` with bound `1`. -/
theorem claim_C1_counterexample :
    Analysis.runResult true true initRuntimeResult initRuntimeResult = initRuntimeResult ∧
    (Analysis.runResult true true initRuntimeResult initRuntimeResult).cpx =
      Complexity.Unknown ∧
    Complexity.Unknown ≠ Complexity.Const :=
  ⟨rfl, rfl, by decide⟩

/-- C1 (amended): for a *non-empty* ITS, `Analysis::run` never returns
complexity `Unknown`: when the extraction yields `Unknown`, the result is
coerced to `Const` with bound `1` and an empty guard.  For an empty ITS the
function returns the default result with complexity `Unknown` (see the
counterexample). -/
theorem claim_C1_amended (isEmptyITS fullySimplified : Bool)
    (mr pr : RuntimeResult) (h : isEmptyITS = false) :
    (Analysis.runResult isEmptyITS fullySimplified mr pr).cpx ≠ Complexity.Unknown ∧
    ((if fullySimplified then mr else pr).cpx = Complexity.Unknown →
      Analysis.runResult isEmptyITS fullySimplified mr pr =
        ⟨Complexity.Const, Exprn.cst 1,
          (if fullySimplified then mr else pr).reducedCpx, []⟩) := by
  subst h
  have hunf : Analysis.runResult false fullySimplified mr pr =
      if (if fullySimplified then mr else pr).cpx = Complexity.Unknown then
        { (if fullySimplified then mr else pr) with
          cpx := Complexity.Const, bound := Exprn.cst 1, guard := [] }
      else (if fullySimplified then mr else pr) := rfl
  by_cases hu : (if fullySimplified then mr else pr).cpx = Complexity.Unknown
  · rw [hunf, if_pos hu]
    exact ⟨by simp, fun _ => rfl⟩
  · rw [hunf, if_neg hu]
    exact ⟨hu, fun hc => absurd hc hu⟩

/-- C1 witness: the amended theorem applied to a non-empty ITS whose
extraction came back `Unknown`. -/
theorem claim_C1_witness :
    (false = false) ∧
    ((Analysis.runResult false true initRuntimeResult initRuntimeResult).cpx ≠
        Complexity.Unknown ∧
      ((if true then initRuntimeResult else initRuntimeResult).cpx = Complexity.Unknown →
        Analysis.runResult false true initRuntimeResult initRuntimeResult =
          ⟨Complexity.Const, Exprn.cst 1,
            (if true then initRuntimeResult else initRuntimeResult).reducedCpx, []⟩)) :=
  ⟨rfl, claim_C1_amended false true initRuntimeResult initRuntimeResult rfl⟩

/-!
Claim C2.
-/

/-- Unfolding equation for `getMaxRuntimeGo` on a non-empty rule list. -/
theorem getMaxRuntimeGo_cons (prover : Prover) (i : Nat) (r : GRule)
    (rest : List (Nat × GRule)) (res : RuntimeResult) (inv : List Nat) :
    Analysis.getMaxRuntimeGo prover ((i, r) :: rest) res inv =
      if Complexity.le r.cpx res.cpx && !Analysis.hasTempVar r then
        Analysis.getMaxRuntimeGo prover rest res inv
      else
        let checkRes := prover r.guard r.cost
        if Complexity.lt res.cpx checkRes.cpx then
          let res' : RuntimeResult :=
            ⟨checkRes.cpx, checkRes.cost, checkRes.reducedCpx, r.guard⟩
          if Complexity.le Complexity.Infty res'.cpx then (res', (i :: inv).reverse)
          else Analysis.getMaxRuntimeGo prover rest res' (i :: inv)
        else Analysis.getMaxRuntimeGo prover rest res (i :: inv) := rfl

/-- Unfolding equation for `runtimeScanSpec` on a non-empty rule list. -/
theorem runtimeScanSpec_cons (prover : Prover) (i : Nat) (r : GRule)
    (rest : List (Nat × GRule)) (res : RuntimeResult) :
    Analysis.runtimeScanSpec prover ((i, r) :: rest) res =
      if Complexity.lt res.cpx r.cpx || Analysis.hasTempVar r then
        let checkRes := prover r.guard r.cost
        let res' : RuntimeResult :=
          if Complexity.lt res.cpx checkRes.cpx then
            ⟨checkRes.cpx, checkRes.cost, checkRes.reducedCpx, r.guard⟩
          else res
        if res'.cpx = Complexity.Infty then (res', [i])
        else
          let rec' := Analysis.runtimeScanSpec prover rest res'
          (rec'.1, i :: rec'.2)
      else Analysis.runtimeScanSpec prover rest res := rfl

/-- The embedded `getMaxRuntime` loop agrees, step by step, with the
claim-shaped scan — provided the running best is not already `Infty`, which
holds for the actual initial value `Unknown` and is preserved by the loop. -/
theorem getMaxRuntimeGo_eq_spec (prover : Prover) (rs : List (Nat × GRule))
    (res : RuntimeResult) (inv : List Nat) (h : res.cpx ≠ Complexity.Infty) :
    Analysis.getMaxRuntimeGo prover rs res inv =
      ((Analysis.runtimeScanSpec prover rs res).1,
        inv.reverse ++ (Analysis.runtimeScanSpec prover rs res).2) := by
  induction rs generalizing res inv with
  | nil => simp [Analysis.getMaxRuntimeGo, Analysis.runtimeScanSpec]
  | cons hd rest ih =>
    obtain ⟨i, r⟩ := hd
    rw [getMaxRuntimeGo_cons, runtimeScanSpec_cons]
    by_cases hskip : (Complexity.le r.cpx res.cpx && !Analysis.hasTempVar r) = true
    · have hskip' : Complexity.le r.cpx res.cpx = true ∧ Analysis.hasTempVar r = false := by
        simpa using hskip
      have hcond : (Complexity.lt res.cpx r.cpx || Analysis.hasTempVar r) = false := by
        rw [Bool.or_eq_false_iff]
        exact ⟨Complexity.lt_eq_false_of_le hskip'.1, hskip'.2⟩
      rw [if_pos hskip, if_neg (by simp [hcond])]
      exact ih res inv h
    · have hnand : ¬(Complexity.le r.cpx res.cpx = true ∧ Analysis.hasTempVar r = false) :=
        fun ⟨hle, ht⟩ => hskip (by simp [hle, ht])
      have hcond : (Complexity.lt res.cpx r.cpx || Analysis.hasTempVar r) = true := by
        by_cases hle : Complexity.le r.cpx res.cpx = true
        · have ht : Analysis.hasTempVar r = true := by
            by_contra hh
            exact hnand ⟨hle, by simpa using hh⟩
          simp [ht]
        · simp [Complexity.lt_of_not_le (Bool.eq_false_iff.mpr hle)]
      rw [if_neg hskip, if_pos hcond]
      by_cases hlt : Complexity.lt res.cpx (prover r.guard r.cost).cpx = true
      · simp only [hlt, if_true]
        by_cases hinf : (prover r.guard r.cost).cpx = Complexity.Infty
        · rw [if_pos (by simpa [Complexity.infty_le_iff] using hinf),
            if_pos (by simpa using hinf)]
          simp
        · rw [if_neg (by simpa [Complexity.infty_le_iff] using hinf),
            if_neg (by simpa using hinf)]
          rw [ih ⟨(prover r.guard r.cost).cpx, (prover r.guard r.cost).cost,
            (prover r.guard r.cost).reducedCpx, r.guard⟩ (i :: inv) (by simpa using hinf)]
          simp
      · simp only [Bool.eq_false_iff.mpr hlt, Bool.false_eq_true, if_false]
        rw [if_neg (by simpa using h)]
        rw [ih res (i :: inv) h]
        simp

/-- C2: in `getMaxRuntime`, for every rule outgoing from the initial
location, scanned in order, the asymptotic prover is invoked iff the rule's
cost complexity exceeds the current best or the cost mentions a temporary
variable (`hasTempVar`, computed in the source as
`!cost.isInfSymbol() && cost.hasVariableWith(isTempVar)`; the lone `Inf`
symbol mentions no variable); the best is replaced only by a strictly
greater prover result; and the scan stops immediately once the best reaches
`Infty`.  All of this is expressed by `runtimeScanSpec`, a second definition
written from the claim's words, with which the embedded loop coincides. -/
theorem claim_C2 (prover : Prover) (its : ITSStore) :
    Analysis.getMaxRuntime prover its =
      Analysis.runtimeScanSpec prover
        (ITSStore.getTransitionsFrom its its.initial) initRuntimeResult := by
  unfold Analysis.getMaxRuntime
  rw [getMaxRuntimeGo_eq_spec prover _ initRuntimeResult [] (by decide)]
  simp

/-!
Claim C7.
-/

/-- Unfolding equation for `maxPartialScanGo` on a non-empty rule list. -/
theorem maxPartialScanGo_cons (prover : Prover) (i : Nat) (r : GRule)
    (rest : List (Nat × GRule)) (res : RuntimeResult) (inv : List Nat) :
    Analysis.maxPartialScanGo prover ((i, r) :: rest) res inv =
      if Complexity.le r.cpx (Complexity.cmax res.cpx Complexity.Const) &&
          !Analysis.hasTempVar r then
        Analysis.maxPartialScanGo prover rest res inv
      else
        let checkRes := prover r.guard r.cost
        if Complexity.lt res.cpx checkRes.cpx then
          let res' : RuntimeResult :=
            ⟨checkRes.cpx, checkRes.cost, checkRes.reducedCpx, r.guard⟩
          if Complexity.le Complexity.Infty res'.cpx then (res', true, (i :: inv).reverse)
          else Analysis.maxPartialScanGo prover rest res' (i :: inv)
        else Analysis.maxPartialScanGo prover rest res (i :: inv) := rfl

/-- Unfolding equation for `maxPartialScanSpec` on a non-empty rule list. -/
theorem maxPartialScanSpec_cons (prover : Prover) (i : Nat) (r : GRule)
    (rest : List (Nat × GRule)) (res : RuntimeResult) :
    Analysis.maxPartialScanSpec prover ((i, r) :: rest) res =
      if Complexity.lt (Complexity.cmax res.cpx Complexity.Const) r.cpx ||
          Analysis.hasTempVar r then
        let checkRes := prover r.guard r.cost
        let res' : RuntimeResult :=
          if Complexity.lt res.cpx checkRes.cpx then
            ⟨checkRes.cpx, checkRes.cost, checkRes.reducedCpx, r.guard⟩
          else res
        if res'.cpx = Complexity.Infty then (res', true, [i])
        else
          let rec' := Analysis.maxPartialScanSpec prover rest res'
          (rec'.1, rec'.2.1, i :: rec'.2.2)
      else Analysis.maxPartialScanSpec prover rest res := rfl

/-- The embedded `getMaxPartialResult` scan agrees with the claim-shaped
scan whose skip threshold is `max(current best, Const)`. -/
theorem maxPartialScanGo_eq_spec (prover : Prover) (rs : List (Nat × GRule))
    (res : RuntimeResult) (inv : List Nat) (h : res.cpx ≠ Complexity.Infty) :
    Analysis.maxPartialScanGo prover rs res inv =
      ((Analysis.maxPartialScanSpec prover rs res).1,
       (Analysis.maxPartialScanSpec prover rs res).2.1,
       inv.reverse ++ (Analysis.maxPartialScanSpec prover rs res).2.2) := by
  induction rs generalizing res inv with
  | nil => simp [Analysis.maxPartialScanGo, Analysis.maxPartialScanSpec]
  | cons hd rest ih =>
    obtain ⟨i, r⟩ := hd
    rw [maxPartialScanGo_cons, maxPartialScanSpec_cons]
    by_cases hskip :
        (Complexity.le r.cpx (Complexity.cmax res.cpx Complexity.Const) &&
          !Analysis.hasTempVar r) = true
    · have hskip' : Complexity.le r.cpx (Complexity.cmax res.cpx Complexity.Const) = true ∧
          Analysis.hasTempVar r = false := by
        simpa using hskip
      have hcond : (Complexity.lt (Complexity.cmax res.cpx Complexity.Const) r.cpx ||
          Analysis.hasTempVar r) = false := by
        rw [Bool.or_eq_false_iff]
        exact ⟨Complexity.lt_eq_false_of_le hskip'.1, hskip'.2⟩
      rw [if_pos hskip, if_neg (by simp [hcond])]
      exact ih res inv h
    · have hnand : ¬(Complexity.le r.cpx (Complexity.cmax res.cpx Complexity.Const) = true ∧
          Analysis.hasTempVar r = false) :=
        fun ⟨hle, ht⟩ => hskip (by simp [hle, ht])
      have hcond : (Complexity.lt (Complexity.cmax res.cpx Complexity.Const) r.cpx ||
          Analysis.hasTempVar r) = true := by
        by_cases hle : Complexity.le r.cpx (Complexity.cmax res.cpx Complexity.Const) = true
        · have ht : Analysis.hasTempVar r = true := by
            by_contra hh
            exact hnand ⟨hle, by simpa using hh⟩
          simp [ht]
        · simp [Complexity.lt_of_not_le (Bool.eq_false_iff.mpr hle)]
      rw [if_neg hskip, if_pos hcond]
      by_cases hlt : Complexity.lt res.cpx (prover r.guard r.cost).cpx = true
      · simp only [hlt, if_true]
        by_cases hinf : (prover r.guard r.cost).cpx = Complexity.Infty
        · rw [if_pos (by simpa [Complexity.infty_le_iff] using hinf),
            if_pos (by simpa using hinf)]
          simp
        · rw [if_neg (by simpa [Complexity.infty_le_iff] using hinf),
            if_neg (by simpa using hinf)]
          rw [ih ⟨(prover r.guard r.cost).cpx, (prover r.guard r.cost).cost,
            (prover r.guard r.cost).reducedCpx, r.guard⟩ (i :: inv) (by simpa using hinf)]
          simp
      · simp only [Bool.eq_false_iff.mpr hlt, Bool.false_eq_true, if_false]
        rw [if_neg (by simpa using h)]
        rw [ih res (i :: inv) h]
        simp

/-- When the claim-shaped scan does not report an `Infty` hit, its running
best stays below `Infty`. -/
theorem maxPartialScanSpec_no_hit (prover : Prover) (rs : List (Nat × GRule)) :
    ∀ res : RuntimeResult, res.cpx ≠ Complexity.Infty →
      (Analysis.maxPartialScanSpec prover rs res).2.1 = false →
      (Analysis.maxPartialScanSpec prover rs res).1.cpx ≠ Complexity.Infty := by
  induction rs with
  | nil => intro res h _; exact h
  | cons hd rest ih =>
    obtain ⟨i, r⟩ := hd
    intro res h hflag
    rw [maxPartialScanSpec_cons] at hflag ⊢
    by_cases hcond : (Complexity.lt (Complexity.cmax res.cpx Complexity.Const) r.cpx ||
        Analysis.hasTempVar r) = true
    · rw [if_pos hcond] at hflag ⊢
      by_cases hlt : Complexity.lt res.cpx (prover r.guard r.cost).cpx = true
      · simp only [hlt, if_true] at hflag ⊢
        by_cases hinf : (prover r.guard r.cost).cpx = Complexity.Infty
        · rw [if_pos (by simpa using hinf)] at hflag
          cases hflag
        · rw [if_neg (by simpa using hinf)] at hflag ⊢
          exact ih _ (by simpa using hinf) hflag
      · simp only [Bool.eq_false_iff.mpr hlt, Bool.false_eq_true, if_false] at hflag ⊢
        rw [if_neg (by simpa using h)] at hflag ⊢
        exact ih res h hflag
    · rw [if_neg hcond] at hflag ⊢
      exact ih res h hflag

/-- Unfolding equation for `getMaxPartialGo` at positive fuel. -/
theorem getMaxPartialGo_succ (prover : Prover) (chainO : GRule → GRule → Option GRule)
    (initial fuel : Nat) (its : ITSStore) (res : RuntimeResult) :
    Analysis.getMaxPartialGo prover chainO initial (fuel + 1) its res =
      (if (Analysis.maxPartialScanGo prover
            (ITSStore.getTransitionsFrom its initial) res []).2.1 then
        some ((Analysis.maxPartialScanGo prover
          (ITSStore.getTransitionsFrom its initial) res []).1, its)
      else if (ITSStore.getSuccessorLocations its initial).isEmpty then
        some ((Analysis.maxPartialScanGo prover
          (ITSStore.getTransitionsFrom its initial) res []).1, its)
      else
        Analysis.getMaxPartialGo prover chainO initial fuel
          (Analysis.chainFromStart chainO initial its
            (ITSStore.getSuccessorLocations its initial))
          (Analysis.maxPartialScanGo prover
            (ITSStore.getTransitionsFrom its initial) res []).1) := rfl

/-- Unfolding equation for `maxPartialLoopSpec` at positive fuel. -/
theorem maxPartialLoopSpec_succ (prover : Prover) (chainO : GRule → GRule → Option GRule)
    (initial fuel : Nat) (its : ITSStore) (res : RuntimeResult) :
    Analysis.maxPartialLoopSpec prover chainO initial (fuel + 1) its res =
      (if (Analysis.maxPartialScanSpec prover
            (ITSStore.getTransitionsFrom its initial) res).2.1 then
        some ((Analysis.maxPartialScanSpec prover
          (ITSStore.getTransitionsFrom its initial) res).1, its)
      else if (ITSStore.getSuccessorLocations its initial).isEmpty then
        some ((Analysis.maxPartialScanSpec prover
          (ITSStore.getTransitionsFrom its initial) res).1, its)
      else
        Analysis.maxPartialLoopSpec prover chainO initial fuel
          (Analysis.chainFromStart chainO initial its
            (ITSStore.getSuccessorLocations its initial))
          (Analysis.maxPartialScanSpec prover
            (ITSStore.getTransitionsFrom its initial) res).1) := rfl

/-- The embedded `getMaxPartialResult` loop agrees with the claim-shaped
loop, iteration by iteration. -/
theorem getMaxPartialGo_eq_spec (prover : Prover)
    (chainO : GRule → GRule → Option GRule) (initial : Nat) :
    ∀ (fuel : Nat) (its : ITSStore) (res : RuntimeResult),
      res.cpx ≠ Complexity.Infty →
      Analysis.getMaxPartialGo prover chainO initial fuel its res =
        Analysis.maxPartialLoopSpec prover chainO initial fuel its res := by
  intro fuel
  induction fuel with
  | zero => intro its res _; rfl
  | succ n ih =>
    intro its res h
    rw [getMaxPartialGo_succ, maxPartialLoopSpec_succ]
    rw [maxPartialScanGo_eq_spec prover _ res [] h]
    dsimp only
    by_cases hflag : (Analysis.maxPartialScanSpec prover
        (ITSStore.getTransitionsFrom its initial) res).2.1 = true
    · rw [if_pos hflag, if_pos hflag]
    · rw [if_neg hflag, if_neg hflag]
      by_cases hempty : (ITSStore.getSuccessorLocations its initial).isEmpty = true
      · rw [if_pos hempty, if_pos hempty]
      · rw [if_neg hempty, if_neg hempty]
        exact ih _ _ (maxPartialScanSpec_no_hit prover _ res h
          (Bool.eq_false_iff.mpr hflag))

/-- C7 counterexample: the `getMaxPartialResult` scan does *not* use the
same skip condition as `getMaxRuntime`: with the best still `Unknown`, a
constant-complexity rule without temporary variables is analyzed by
`getMaxRuntime` (which then reports `Const`) but skipped by the partial
scan (which stays at `Unknown` and invokes the prover on no rule). -/
theorem claim_C7_counterexample :
    (Analysis.getMaxRuntimeGo
        (fun _ _ => ⟨Complexity.Const, Exprn.cst 1, Complexity.Const⟩)
        [(0, ⟨0, [1], [], Exprn.cst 1, Complexity.Const, false, false⟩)]
        initRuntimeResult []) =
      (⟨Complexity.Const, Exprn.cst 1, Complexity.Const, []⟩, [0]) ∧
    (Analysis.maxPartialScanGo
        (fun _ _ => ⟨Complexity.Const, Exprn.cst 1, Complexity.Const⟩)
        [(0, ⟨0, [1], [], Exprn.cst 1, Complexity.Const, false, false⟩)]
        initRuntimeResult []) =
      (initRuntimeResult, false, []) :=
  ⟨rfl, rfl⟩

/-- C7 (amended): `getMaxPartialResult` repeats exactly two phases — the
per-rule scan of the initial location's outgoing rules, which works as in
`getMaxRuntime` except that a rule is skipped when its cost complexity does
not exceed `max(current best, Const)` (and has no temporary variable), then
one level of chaining from the start in which every rule `first` from the
initial location to a successor `s` is chained with every rule leaving `s`,
successful chains are added and `first` is deleted — and (with the timeout
oracles modelled as never firing) the loop stops exactly when the scan
reaches `Infty` or the initial location has no successors. -/
theorem claim_C7_amended (prover : Prover) (chainO : GRule → GRule → Option GRule)
    (fuel : Nat) (its : ITSStore) :
    Analysis.getMaxPartialResult prover chainO fuel its =
      Analysis.maxPartialLoopSpec prover chainO its.initial fuel its initRuntimeResult := by
  unfold Analysis.getMaxPartialResult
  exact getMaxPartialGo_eq_spec prover chainO its.initial fuel its initRuntimeResult (by decide)

/-!
Claim C8.
-/

/-- Unfolding equation for `removeConstantPathsImpl` at positive fuel. -/
theorem removeConstantPathsImpl_succ (fuel : Nat) (its : ITSStore) (curr : Nat)
    (visited : List Nat) :
    Analysis.removeConstantPathsImpl (fuel + 1) its curr visited =
      if visited.contains curr then (its, visited, true)
      else
        ((Analysis.removeConstantPathsSuccs (Analysis.removeConstantPathsImpl fuel) curr
            (ITSStore.getSuccessorLocations its curr) its (visited ++ [curr])).1,
         (Analysis.removeConstantPathsSuccs (Analysis.removeConstantPathsImpl fuel) curr
            (ITSStore.getSuccessorLocations its curr) its (visited ++ [curr])).2,
         (ITSStore.getTransitionsFrom
            (Analysis.removeConstantPathsSuccs (Analysis.removeConstantPathsImpl fuel) curr
              (ITSStore.getSuccessorLocations its curr) its (visited ++ [curr])).1
            curr).isEmpty) := rfl

/-- Unfolding equation for `removeConstantPathsSuccs` on a non-empty
successor list. -/
theorem removeConstantPathsSuccs_cons
    (go : ITSStore → Nat → List Nat → ITSStore × List Nat × Bool)
    (curr next : Nat) (rest : List Nat) (its : ITSStore) (visited : List Nat) :
    Analysis.removeConstantPathsSuccs go curr (next :: rest) its visited =
      Analysis.removeConstantPathsSuccs go curr rest
        (if (go its next visited).2.2 then
          ((ITSStore.getTransitionsFromTo (go its next visited).1 curr next).filter
              (fun p => Complexity.le p.2.cpx Complexity.Const)).foldl
            (fun s p => ITSStore.removeRule s p.1) (go its next visited).1
         else (go its next visited).1)
        (go its next visited).2.1 := rfl

/-- A fold of `removeRule` calls only shrinks the rule list. -/
theorem foldl_removeRule_sublist (ps : List (Nat × GRule)) :
    ∀ s : ITSStore,
      List.Sublist ((ps.foldl (fun s p => ITSStore.removeRule s p.1) s).rules) s.rules := by
  induction ps with
  | nil => intro s; exact List.Sublist.refl _
  | cons p rest ih =>
    intro s
    exact (ih (ITSStore.removeRule s p.1)).trans (List.filter_sublist s.rules)

/-- A fold of `removeRule` calls keeps every rule whose index is not among
the removed ones. -/
theorem foldl_removeRule_keep (q : Nat × GRule) :
    ∀ (ps : List (Nat × GRule)) (s : ITSStore),
      q ∈ s.rules → (∀ p ∈ ps, p.1 ≠ q.1) →
      q ∈ (ps.foldl (fun s p => ITSStore.removeRule s p.1) s).rules := by
  intro ps
  induction ps with
  | nil => intro s hq _; exact hq
  | cons p rest ih =>
    intro s hq hne
    refine ih (ITSStore.removeRule s p.1) ?_ (fun p' hp' => hne p' (List.mem_cons_of_mem p hp'))
    refine List.mem_filter.mpr ⟨hq, ?_⟩
    simpa using (hne p (List.mem_cons_self p rest)).symm

theorem removeConstantPathsSuccs_sublist
    (go : ITSStore → Nat → List Nat → ITSStore × List Nat × Bool)
    (hgo : ∀ its next visited, List.Sublist ((go its next visited).1.rules) its.rules)
    (curr : Nat) :
    ∀ (succs : List Nat) (its : ITSStore) (visited : List Nat),
      List.Sublist
        ((Analysis.removeConstantPathsSuccs go curr succs its visited).1.rules) its.rules := by
  intro succs
  induction succs with
  | nil => intro its visited; exact List.Sublist.refl _
  | cons next rest ih =>
    intro its visited
    rw [removeConstantPathsSuccs_cons]
    have h3 : List.Sublist
        ((if (go its next visited).2.2 then
            ((ITSStore.getTransitionsFromTo (go its next visited).1 curr next).filter
                (fun p => Complexity.le p.2.cpx Complexity.Const)).foldl
              (fun s p => ITSStore.removeRule s p.1) (go its next visited).1
          else (go its next visited).1).rules)
        ((go its next visited).1.rules) := by
      by_cases hf : (go its next visited).2.2 = true
      · rw [if_pos hf]
        exact foldl_removeRule_sublist _ _
      · rw [if_neg hf]
    exact (ih _ _).trans (h3.trans (hgo its next visited))

theorem removeConstantPathsImpl_sublist :
    ∀ (fuel : Nat) (its : ITSStore) (curr : Nat) (visited : List Nat),
      List.Sublist ((Analysis.removeConstantPathsImpl fuel its curr visited).1.rules)
        its.rules := by
  intro fuel
  induction fuel with
  | zero => intro its curr visited; exact List.Sublist.refl _
  | succ n ih =>
    intro its curr visited
    rw [removeConstantPathsImpl_succ]
    by_cases h : visited.contains curr = true
    · rw [if_pos h]
    · rw [if_neg h]
      exact removeConstantPathsSuccs_sublist (Analysis.removeConstantPathsImpl n)
        (fun i nx v => ih i nx v) curr _ its _

theorem removeConstantPathsSuccs_retain
    (go : ITSStore → Nat → List Nat → ITSStore × List Nat × Bool)
    (hgoS : ∀ its next visited, List.Sublist ((go its next visited).1.rules) its.rules)
    (hgoR : ∀ its next visited q, (its.rules.map Prod.fst).Nodup → q ∈ its.rules →
      Complexity.le q.2.cpx Complexity.Const = false → q ∈ (go its next visited).1.rules)
    (curr : Nat) :
    ∀ (succs : List Nat) (its : ITSStore) (visited : List Nat) (q : Nat × GRule),
      (its.rules.map Prod.fst).Nodup → q ∈ its.rules →
      Complexity.le q.2.cpx Complexity.Const = false →
      q ∈ (Analysis.removeConstantPathsSuccs go curr succs its visited).1.rules := by
  intro succs
  induction succs with
  | nil => intro its visited q _ hq _; exact hq
  | cons next rest ih =>
    intro its visited q hnd hq hc
    rw [removeConstantPathsSuccs_cons]
    have hq1 : q ∈ (go its next visited).1.rules := hgoR its next visited q hnd hq hc
    have hnd1 : ((go its next visited).1.rules.map Prod.fst).Nodup :=
      hnd.sublist ((hgoS its next visited).map Prod.fst)
    have hq3 : q ∈ (if (go its next visited).2.2 then
        ((ITSStore.getTransitionsFromTo (go its next visited).1 curr next).filter
            (fun p => Complexity.le p.2.cpx Complexity.Const)).foldl
          (fun s p => ITSStore.removeRule s p.1) (go its next visited).1
      else (go its next visited).1).rules := by
      by_cases hf : (go its next visited).2.2 = true
      · rw [if_pos hf]
        refine foldl_removeRule_keep q _ _ hq1 ?_
        intro p hp heq
        have hp1 : p ∈ (go its next visited).1.rules ∧
            Complexity.le p.2.cpx Complexity.Const = true := by
          have h1 := List.mem_filter.mp hp
          exact ⟨(List.mem_filter.mp h1.1).1, by simpa using h1.2⟩
        have hpq : p = q := List.inj_on_of_nodup_map hnd1 hp1.1 hq1 heq
        rw [hpq] at hp1
        rw [hp1.2] at hc
        cases hc
      · rw [if_neg hf]
        exact hq1
    have hnd3 : (((if (go its next visited).2.2 then
        ((ITSStore.getTransitionsFromTo (go its next visited).1 curr next).filter
            (fun p => Complexity.le p.2.cpx Complexity.Const)).foldl
          (fun s p => ITSStore.removeRule s p.1) (go its next visited).1
      else (go its next visited).1).rules).map Prod.fst).Nodup := by
      by_cases hf : (go its next visited).2.2 = true
      · rw [if_pos hf]
        exact hnd1.sublist ((foldl_removeRule_sublist _ _).map Prod.fst)
      · rw [if_neg hf]
        exact hnd1
    exact ih _ _ q hnd3 hq3 hc

theorem removeConstantPathsImpl_retain :
    ∀ (fuel : Nat) (its : ITSStore) (curr : Nat) (visited : List Nat) (q : Nat × GRule),
      (its.rules.map Prod.fst).Nodup → q ∈ its.rules →
      Complexity.le q.2.cpx Complexity.Const = false →
      q ∈ ((Analysis.removeConstantPathsImpl fuel its curr visited).1).rules := by
  intro fuel
  induction fuel with
  | zero => intro its curr visited q _ hq _; exact hq
  | succ n ih =>
    intro its curr visited q hnd hq hc
    rw [removeConstantPathsImpl_succ]
    by_cases h : visited.contains curr = true
    · rw [if_pos h]; exact hq
    · rw [if_neg h]
      exact removeConstantPathsSuccs_retain (Analysis.removeConstantPathsImpl n)
        (fun i nx v => removeConstantPathsImpl_sublist n i nx v)
        (fun i nx v q' hnd' hq' hc' => ih i nx v q' hnd' hq' hc')
        curr _ its _ q hnd hq hc

/-- C8 counterexample: in `exampleStore8` the DFS first visits location `1`
(which keeps its outgoing rule of complexity `Poly 1`), and later reaches
`1` again via `2`; the already-visited shortcut at line 535 then reports
"no non-constant rules reachable", so the constant rule `3 : 2 → 1` is
removed even though the super-constant rule `1 : 1 → 3` is reachable from
location `1`.  This refutes "removes a constant-or-unknown-cost rule
entering a node n only when every rule reachable from n has
constant-or-unknown cost". -/
theorem claim_C8_counterexample :
    ((Analysis.removeConstantPathsAfterTimeout exampleStore8).rules.all
        (fun p => p.1 ≠ 3)) = true ∧
    (3, ⟨2, [1], [], Exprn.cst 1, Complexity.Const, false, false⟩) ∈ exampleStore8.rules ∧
    Complexity.le
      ((⟨2, [1], [], Exprn.cst 1, Complexity.Const, false, false⟩ : GRule).cpx)
      Complexity.Const = true ∧
    (1, ⟨1, [3], [], Exprn.var 0, Complexity.Poly 1, false, false⟩) ∈
      (Analysis.removeConstantPathsAfterTimeout exampleStore8).rules ∧
    (⟨1, [3], [], Exprn.var 0, Complexity.Poly 1, false, false⟩ : GRule).lhs = 1 ∧
    Complexity.lt Complexity.Const (Complexity.Poly 1) = true := by
  refine ⟨?_, ?_, ?_, ?_, ?_, ?_⟩ <;> decide

/-- C8 (amended): `removeConstantPathsImpl` never removes a rule whose cost
complexity exceeds `Const` (so every witness of super-constant complexity
survives); moreover its return flag — the licence for the caller to delete
the constant rules entering the current node — is `true` exactly when the
node was already visited (also across converging paths or loops, see the
counterexample) or every rule leaving the node has been removed. -/
theorem claim_C8_amended (fuel : Nat) (its : ITSStore) (curr : Nat)
    (visited : List Nat) (hnd : (its.rules.map Prod.fst).Nodup) :
    (∀ q ∈ its.rules, Complexity.lt Complexity.Const q.2.cpx = true →
      q ∈ ((Analysis.removeConstantPathsImpl fuel its curr visited).1).rules) ∧
    (fuel ≠ 0 →
      (Analysis.removeConstantPathsImpl fuel its curr visited).2.2 =
        (visited.contains curr ||
          (ITSStore.getTransitionsFrom
            (Analysis.removeConstantPathsImpl fuel its curr visited).1 curr).isEmpty)) := by
  constructor
  · intro q hq hcc
    have hle : Complexity.le q.2.cpx Complexity.Const = false :=
      Bool.eq_false_iff.mpr (fun hle =>
        absurd hcc (by rw [Complexity.lt_eq_false_of_le hle]; simp))
    exact removeConstantPathsImpl_retain fuel its curr visited q hnd hq hle
  · intro hf
    obtain ⟨n, rfl⟩ := Nat.exists_eq_succ_of_ne_zero hf
    rw [removeConstantPathsImpl_succ]
    by_cases h : visited.contains curr = true
    · rw [if_pos h]
      rw [h, Bool.true_or]
    · rw [if_neg h]
      rw [Bool.eq_false_iff.mpr h, Bool.false_or]

/-- C8 witness: the amended theorem applied to `exampleStore8` with the fuel
`removeConstantPathsAfterTimeout` uses. -/
theorem claim_C8_witness :
    ((exampleStore8.rules.map Prod.fst).Nodup) ∧
    ((∀ q ∈ exampleStore8.rules, Complexity.lt Complexity.Const q.2.cpx = true →
        q ∈ ((Analysis.removeConstantPathsImpl 6 exampleStore8 0 []).1).rules) ∧
      ((6 : Nat) ≠ 0 →
        (Analysis.removeConstantPathsImpl 6 exampleStore8 0 []).2.2 =
          (([] : List Nat).contains 0 ||
            (ITSStore.getTransitionsFrom
              (Analysis.removeConstantPathsImpl 6 exampleStore8 0 []).1 0).isEmpty))) :=
  ⟨by decide, claim_C8_amended 6 exampleStore8 0 [] (by decide)⟩

/-!
Claim C6.
-/

/-- C6: after `ensureProperInitialLocation`, the initial location has no
incoming rules; if the old initial location had an incoming rule, a fresh
location is added together with the dummy rule to the old initial location
and becomes initial (returning `true`); otherwise the store is unchanged
and `false` is returned. -/
theorem claim_C6 (its : ITSStore) (h : ITSStore.locWF its) :
    ITSStore.hasTransitionsTo (Analysis.ensureProperInitialLocation its).2
        (Analysis.ensureProperInitialLocation its).2.initial = false ∧
    (Analysis.ensureProperInitialLocation its).1 =
      ITSStore.hasTransitionsTo its its.initial ∧
    ((Analysis.ensureProperInitialLocation its).1 = false →
      (Analysis.ensureProperInitialLocation its).2 = its) ∧
    ((Analysis.ensureProperInitialLocation its).1 = true →
      (Analysis.ensureProperInitialLocation its).2.initial = its.nextLoc ∧
      (Analysis.ensureProperInitialLocation its).2.rules =
        its.rules ++ [(its.nextRule, Analysis.dummyRule its.nextLoc its.initial)] ∧
      (Analysis.ensureProperInitialLocation its).2.locations =
        its.locations ++ [its.nextLoc]) := by
  obtain ⟨hinit, hrules⟩ := h
  by_cases hT : ITSStore.hasTransitionsTo its its.initial = true
  · have hunf : Analysis.ensureProperInitialLocation its =
        (true, ITSStore.setInitialLocation
          (ITSStore.addRule (ITSStore.addLocation its).2
            (Analysis.dummyRule its.nextLoc its.initial)) its.nextLoc) := by
      unfold Analysis.ensureProperInitialLocation
      rw [if_pos hT]
      rfl
    rw [hunf]
    refine ⟨?_, hT.symm, fun hc => absurd hc (by simp), fun _ => ⟨rfl, rfl, rfl⟩⟩
    simp only [ITSStore.hasTransitionsTo, ITSStore.setInitialLocation, ITSStore.addRule,
      ITSStore.addLocation]
    rw [List.any_eq_false]
    intro q hq
    rcases List.mem_append.mp hq with hq' | hq'
    · intro hc
      have hmem : its.nextLoc ∈ q.2.rhss := List.elem_iff.mp hc
      exact absurd (hrules q hq' its.nextLoc hmem) (by omega)
    · intro hc
      have hq2 : q = (its.nextRule, Analysis.dummyRule its.nextLoc its.initial) := by
        simpa using hq'
      rw [hq2] at hc
      have hmem : its.nextLoc ∈ (Analysis.dummyRule its.nextLoc its.initial).rhss :=
        List.elem_iff.mp hc
      simp only [Analysis.dummyRule, List.mem_singleton] at hmem
      omega
  · have hTf : ITSStore.hasTransitionsTo its its.initial = false := by
      exact Bool.eq_false_iff.mpr hT
    have hunf : Analysis.ensureProperInitialLocation its = (false, its) := by
      unfold Analysis.ensureProperInitialLocation
      rw [if_neg hT]
    rw [hunf]
    exact ⟨hTf, hTf.symm, fun _ => rfl, fun hc => absurd hc (by simp)⟩

/-- C6 witness: the theorem applied to a store whose initial location `0`
has an incoming rule from location `1`. -/
theorem claim_C6_witness :
    ITSStore.locWF
      ⟨[0, 1], 2,
        [(0, ⟨1, [0], [], Exprn.cst 1, Complexity.Const, false, false⟩)], 1, 0⟩ ∧
    ITSStore.hasTransitionsTo
      (Analysis.ensureProperInitialLocation
        ⟨[0, 1], 2,
          [(0, ⟨1, [0], [], Exprn.cst 1, Complexity.Const, false, false⟩)], 1, 0⟩).2
      (Analysis.ensureProperInitialLocation
        ⟨[0, 1], 2,
          [(0, ⟨1, [0], [], Exprn.cst 1, Complexity.Const, false, false⟩)], 1, 0⟩).2.initial
      = false :=
  ⟨by decide,
   (claim_C6
     ⟨[0, 1], 2, [(0, ⟨1, [0], [], Exprn.cst 1, Complexity.Const, false, false⟩)], 1, 0⟩
     (by decide)).1⟩

/-!
Claim C3.
-/

/-- C3: if `Recurrence::calcIterated` cannot solve the recurrence for some
updated variable or for the cost, it returns `false` and leaves the given
rule completely unchanged; only when every recurrence is solved does it
replace the rule's update and cost and extend the guard. -/
theorem claim_C3 (solve : Recurrence.UpdateSolver) (csolve : Recurrence.CostSolver)
    (rule : Recurrence.RRule) (meter : Exprn)
    (h : (Recurrence.calcIterated solve csolve rule meter).1 = false) :
    (Recurrence.calcIterated solve csolve rule meter).2 = rule := by
  cases hu : Recurrence.calcIteratedUpdate solve rule.update meter with
  | none => simp [Recurrence.calcIterated, hu]
  | some pr =>
    obtain ⟨newUpdate, st⟩ := pr
    cases hc : Recurrence.calcIteratedCost csolve st.knownPre rule.cost meter with
    | none => simp [Recurrence.calcIterated, hu, hc]
    | some nc =>
      have htrue : (Recurrence.calcIterated solve csolve rule meter).1 = true := by
        simp [Recurrence.calcIterated, hu, hc]
      rw [htrue] at h
      cases h

/-- C3 witness: the theorem applied to a solver that always fails on the
rule with guard `[]`, cost `0` and update `x0 ← x0`. -/
theorem claim_C3_witness :
    ((Recurrence.calcIterated (fun _ _ => none) Recurrence.constCostSolve
        ⟨[], Exprn.cst 0, [(0, Exprn.var 0)]⟩ (Exprn.cst 1)).1 = false) ∧
    (Recurrence.calcIterated (fun _ _ => none) Recurrence.constCostSolve
        ⟨[], Exprn.cst 0, [(0, Exprn.var 0)]⟩ (Exprn.cst 1)).2 =
      ⟨[], Exprn.cst 0, [(0, Exprn.var 0)]⟩ :=
  ⟨rfl,
   claim_C3 (fun _ _ => none) Recurrence.constCostSolve
     ⟨[], Exprn.cst 0, [(0, Exprn.var 0)]⟩ (Exprn.cst 1) rfl⟩

/-!
Claim C4.
-/

/-- The degenerate constant solver is a conformant update-recurrence
solver. -/
theorem constSolve_conformant : Recurrence.UpdateSolverConformant Recurrence.constSolve := by
  intro todo target g hg
  unfold Recurrence.constSolve at hg
  by_cases hc : Recurrence.isClosedE todo = true
  · rw [if_pos hc] at hg
    have hgt : g = todo := by
      cases hg
      rfl
    subst hgt
    have hpv : ∀ v ∈ g.pvars, v ∉ ([] : List Nat) → True := fun _ _ _ => trivial
    have hclosed := hc
    unfold Recurrence.isClosedE at hclosed
    have hpvars : g.pvars = [] := by
      have := (Bool.and_eq_true _ _).mp hclosed
      exact List.isEmpty_iff.mp this.1
    have hnoN : g.hasN = false := by
      have := (Bool.and_eq_true _ _).mp hclosed
      simpa using this.2
    constructor
    · intro σ
      rfl
    · intro k hk σ
      rw [Exprn.subsF_eq_of_none _ g (fun v hv => by rw [hpvars] at hv; cases hv)]
  · rw [if_neg hc] at hg
    cases hg

/-- C4 counterexample: with a conformant solver, on the update
`{x0 ← 0, x1 ← x0}` the dependency order is `[x0, x1]`; the pre-recurrence
substitution turns `x1`'s initial condition into `0`, so the stored closed
form for `x1` is `0` — evaluating the accelerated update at `m = 1` under
`x0 = 1` yields `0`, while the original update `u(x1) = x0` yields `1`.
The initial condition `x_v(1) = u(v)` and the reproduction of the original
update at `m := 1` both fail for `x1`. -/
theorem claim_C4_counterexample :
    Recurrence.UpdateSolverConformant Recurrence.constSolve ∧
    Recurrence.calcIteratedUpdate Recurrence.constSolve
        [(0, Exprn.cst 0), (1, Exprn.var 0)] (Exprn.cst 1) =
      some ([(0, Exprn.cst 0), (1, Exprn.cst 0)],
        ⟨[(0, Exprn.cst 0), (1, Exprn.cst 0)], []⟩) ∧
    Exprn.eval 0 (fun _ => 1) (Exprn.cst 0) = 0 ∧
    Exprn.eval 0 (fun _ => 1) (Exprn.var 0) = 1 ∧
    (0 : Int) ≠ 1 :=
  ⟨constSolve_conformant, by decide, rfl, rfl, by decide⟩

/-- The accumulator of `calcIteratedUpdateGo` only grows. -/
theorem calcIteratedUpdateGo_prefix (solve : Recurrence.UpdateSolver)
    (u : Recurrence.UpdateMap) (meter : Exprn) :
    ∀ (order : List Nat) (newUpd : Recurrence.UpdateMap)
      (knownPre : List (Nat × Exprn)) (out : Recurrence.UpdateMap × List (Nat × Exprn)),
      Recurrence.calcIteratedUpdateGo solve u meter order newUpd knownPre = some out →
      ∃ extra, out.1 = newUpd ++ extra := by
  intro order
  induction order with
  | nil =>
    intro newUpd knownPre out h
    cases h
    exact ⟨[], by simp⟩
  | cons vi rest ih =>
    intro newUpd knownPre out h
    unfold Recurrence.calcIteratedUpdateGo at h
    cases hf : (u.find? (fun p => p.1 = vi)).map Prod.snd with
    | none => rw [hf] at h; cases h
    | some rhs =>
      rw [hf] at h
      cases hs : solve (Exprn.subsMap knownPre rhs) vi with
      | none =>
        simp only [hs] at h
        cases h
      | some res =>
        simp only [hs] at h
        obtain ⟨extra, hextra⟩ := ih _ _ out h
        exact ⟨(vi, Exprn.subsN meter res) :: extra, by simpa using hextra⟩

/-- C4 (amended): for every conformant recurrence solver, the *first*
variable `v0` in the dependency order — whose initial condition is not yet
distorted by pre-recurrence substitution — satisfies `x_{v0}(1) = u(v0)`:
when the cycle-breaking step left the update unchanged and `u(v0)` does not
mention the solver counter `n`, substituting the metering function `m := 1`
into the accelerated update reproduces `u(v0)` semantically.  For later
variables, already-processed variables are first replaced by their
pre-recurrences in the initial condition, and the identity can fail (see
the counterexample). -/
theorem claim_C4_amended (solve : Recurrence.UpdateSolver)
    (hconf : Recurrence.UpdateSolverConformant solve)
    (u : Recurrence.UpdateMap) (v0 : Nat) (rest : List Nat)
    (newUpd : Recurrence.UpdateMap) (st : Recurrence.RecState) (rhs0 : Exprn)
    (hord : (Recurrence.dependencyOrder u).ordering = v0 :: rest)
    (hsame : (Recurrence.dependencyOrder u).update = u)
    (hres : Recurrence.calcIteratedUpdate solve u (Exprn.cst 1) = some (newUpd, st))
    (hrhs : ((u.find? (fun p => p.1 = v0)).map Prod.snd) = some rhs0)
    (hn : rhs0.hasN = false) :
    ∃ acc, ((newUpd.find? (fun p => p.1 = v0)).map Prod.snd) = some acc ∧
      ∀ (nv : Int) (σ : Nat → Int), acc.eval nv σ = rhs0.eval nv σ := by
  unfold Recurrence.calcIteratedUpdate at hres
  by_cases hcomp : (Recurrence.dependencyOrder u).complete = true
  · rw [if_pos hcomp] at hres
    rw [hsame, hord] at hres
    unfold Recurrence.calcIteratedUpdateGo at hres
    rw [hrhs] at hres
    simp only [Exprn.subsMap_nil, List.nil_append] at hres
    cases hs : solve rhs0 v0 with
    | none =>
      simp only [hs] at hres
      cases hres
    | some res0 =>
      simp only [hs] at hres
      cases hgo : Recurrence.calcIteratedUpdateGo solve u (Exprn.cst 1) rest
          [(v0, Exprn.subsN (Exprn.cst 1) res0)]
          [(v0, Exprn.subsN (Exprn.sub Exprn.nvar (Exprn.cst 1)) res0)] with
      | none =>
        simp only [hgo] at hres
        cases hres
      | some out =>
        obtain ⟨newUpdate, knownPre⟩ := out
        simp only [hgo] at hres
        cases hres
        obtain ⟨extra, hextra⟩ :=
          calcIteratedUpdateGo_prefix solve u (Exprn.cst 1) rest _ _ _ hgo
        refine ⟨Exprn.subsN (Exprn.cst 1) res0, ?_, ?_⟩
        · have : newUpd = (v0, Exprn.subsN (Exprn.cst 1) res0) :: extra := by
            simpa using hextra
          rw [this]
          simp [List.find?_cons_of_pos]
        · intro nv σ
          have hinit := (hconf rhs0 v0 res0 hs).1
          calc (Exprn.subsN (Exprn.cst 1) res0).eval nv σ
              = res0.eval ((Exprn.cst 1).eval nv σ) σ := Exprn.eval_subsN nv σ _ res0
            _ = res0.eval 1 σ := rfl
            _ = rhs0.eval 1 σ := hinit σ
            _ = rhs0.eval nv σ := Exprn.eval_not_hasN 1 nv σ rhs0 hn
  · rw [if_neg hcomp] at hres
    cases hres

/-!
Claim C5: lemmas on the dependency-order loop.
-/

/-- Unfolding equation for `depPassGo` on a non-empty entry list. -/
theorem depPassGo_cons (ks : List Nat) (v : Nat) (rhs : Exprn)
    (rest : List (Nat × Exprn)) (ordering ordered : List Nat) (changed : Bool) :
    Recurrence.depPassGo ks ((v, rhs) :: rest) ordering ordered changed =
      if ordered.contains v then Recurrence.depPassGo ks rest ordering ordered changed
      else if Recurrence.depsResolved ks ordered v rhs then
        Recurrence.depPassGo ks rest (ordering ++ [v]) (ordered ++ [v]) true
      else Recurrence.depPassGo ks rest ordering ordered changed := rfl

/-- Unfolding equation for `depLoop` at positive fuel. -/
theorem depLoop_succ (fuel : Nat) (u : Recurrence.UpdateMap)
    (ordering ordered : List Nat) (ag : List Rel) :
    Recurrence.depLoop (fuel + 1) u ordering ordered ag =
      if ordering.length < u.length then
        if (Recurrence.depPass u ordering ordered).2.2 then
          Recurrence.depLoop fuel u (Recurrence.depPass u ordering ordered).1
            (Recurrence.depPass u ordering ordered).2.1 ag
        else
          Recurrence.depLoop fuel
            (Recurrence.breakCycle u (Recurrence.depPass u ordering ordered).2.1 ag).1
            (Recurrence.depPass u ordering ordered).1
            (Recurrence.depPass u ordering ordered).2.1
            (Recurrence.breakCycle u (Recurrence.depPass u ordering ordered).2.1 ag).2
      else ⟨ordering, ag, u, true⟩ := rfl

/-- The cycle-breaking step, unfolded on a non-empty unresolved list. -/
theorem breakCycle_eq (u : Recurrence.UpdateMap) (ordered : List Nat) (ag : List Rel)
    (t : Nat) (others : List Nat)
    (hf : (Recurrence.keys u).filter (fun v => !ordered.contains v) = t :: others) :
    Recurrence.breakCycle u ordered ag =
      (u.map (fun p => (p.1, Exprn.subsF
          (fun w => if others.contains w then some (Exprn.var t) else none) p.2)),
       ag ++ others.map (fun o => Rel.mk (Exprn.var t) RelOp.eq (Exprn.var o))) := by
  unfold Recurrence.breakCycle
  rw [hf]

/-- Mapping over the values of an update map leaves its keys unchanged. -/
theorem keys_map_snd (u : Recurrence.UpdateMap) (f : Nat × Exprn → Exprn) :
    Recurrence.keys (u.map (fun p => (p.1, f p))) = Recurrence.keys u := by
  unfold Recurrence.keys
  rw [List.map_map]
  rfl

/-- One pass of `dependencyOrder`'s inner loop, started with
`orderedVars` mirroring `ordering`: it appends some block `Δ` of entry keys
to both, keeps them duplicate-free, and reports a change iff `Δ` is
non-empty. -/
theorem depPassGo_spec (ks : List Nat) :
    ∀ (entries : List (Nat × Exprn)) (ordering : List Nat) (changed : Bool),
      ordering.Nodup →
      ∃ Δ : List Nat,
        Recurrence.depPassGo ks entries ordering ordering changed =
          (ordering ++ Δ, ordering ++ Δ, changed || !Δ.isEmpty) ∧
        (∀ x ∈ Δ, x ∈ entries.map Prod.fst) ∧
        (ordering ++ Δ).Nodup := by
  intro entries
  induction entries with
  | nil =>
    intro ordering changed hnd
    exact ⟨[], by simp [Recurrence.depPassGo], by simp, by simpa using hnd⟩
  | cons e rest ih =>
    obtain ⟨v, rhs⟩ := e
    intro ordering changed hnd
    rw [depPassGo_cons]
    by_cases hv : ordering.contains v = true
    · rw [if_pos hv]
      obtain ⟨Δ, h1, h2, h3⟩ := ih ordering changed hnd
      exact ⟨Δ, h1, fun x hx => by simpa using Or.inr (by simpa using h2 x hx), h3⟩
    · rw [if_neg hv]
      by_cases hr : Recurrence.depsResolved ks ordering v rhs = true
      · rw [if_pos hr]
        have hvnot : v ∉ ordering := fun hmem => hv (List.elem_iff.mpr hmem)
        have hnd' : (ordering ++ [v]).Nodup := by
          rw [List.nodup_append]
          exact ⟨hnd, List.nodup_singleton v,
            fun x hx hx' => by
              rw [List.mem_singleton] at hx'
              exact hvnot (hx' ▸ hx)⟩
        obtain ⟨Δ', h1, h2, h3⟩ := ih (ordering ++ [v]) true hnd'
        refine ⟨v :: Δ', ?_, ?_, ?_⟩
        · rw [h1]
          have hmv : (ordering ++ [v]) ++ Δ' = ordering ++ (v :: Δ') := by simp
          rw [hmv]
          simp
        · intro x hx
          rcases List.mem_cons.mp hx with rfl | hx'
          · simp
          · simpa using Or.inr (by simpa using h2 x hx')
        · rw [show ordering ++ v :: Δ' = (ordering ++ [v]) ++ Δ' by simp]
          exact h3
      · rw [if_neg hr]
        obtain ⟨Δ, h1, h2, h3⟩ := ih ordering changed hnd
        exact ⟨Δ, h1, fun x hx => by simpa using Or.inr (by simpa using h2 x hx), h3⟩

/-- The changed flag of the pass is monotone: once set, it stays set. -/
theorem depPassGo_mono (ks : List Nat) :
    ∀ (entries : List (Nat × Exprn)) (ordering ordered : List Nat),
      (Recurrence.depPassGo ks entries ordering ordered true).2.2 = true := by
  intro entries
  induction entries with
  | nil => intro ordering ordered; rfl
  | cons e rest ih =>
    obtain ⟨v, rhs⟩ := e
    intro ordering ordered
    rw [depPassGo_cons]
    by_cases h1 : ordered.contains v = true
    · rw [if_pos h1]; exact ih _ _
    · rw [if_neg h1]
      by_cases h2 : Recurrence.depsResolved ks ordered v rhs = true
      · rw [if_pos h2]; exact ih _ _
      · rw [if_neg h2]; exact ih _ _

/-- Progress: if some entry's dependencies are resolved under every
extension of the current `orderedVars`, the pass orders it (or it already
was ordered), so the pass reports a change. -/
theorem depPassGo_progress (ks : List Nat) (t : Nat) (rhs : Exprn) :
    ∀ (entries : List (Nat × Exprn)) (ordering ordered : List Nat) (changed : Bool),
      (t, rhs) ∈ entries →
      (∀ ord' : List Nat, (∀ x ∈ ordered, x ∈ ord') →
        Recurrence.depsResolved ks ord' t rhs = true) →
      t ∈ ordered ∨ (Recurrence.depPassGo ks entries ordering ordered changed).2.2 = true := by
  intro entries
  induction entries with
  | nil => intro ordering ordered changed hmem _; cases hmem
  | cons e rest ih =>
    obtain ⟨v, r0⟩ := e
    intro ordering ordered changed hmem hres
    rw [depPassGo_cons]
    by_cases hv : ordered.contains v = true
    · rw [if_pos hv]
      rcases List.mem_cons.mp hmem with heq | hmem'
      · cases heq
        exact Or.inl (List.elem_iff.mp hv)
      · exact ih ordering ordered changed hmem' hres
    · rw [if_neg hv]
      by_cases hr : Recurrence.depsResolved ks ordered v r0 = true
      · rw [if_pos hr]
        exact Or.inr (depPassGo_mono ks rest _ _)
      · rw [if_neg hr]
        rcases List.mem_cons.mp hmem with heq | hmem'
        · cases heq
          exact absurd (hres ordered (fun x hx => hx)) hr
        · exact ih ordering ordered changed hmem' hres

/-- Adequacy of the dependency-order loop: starting from any
duplicate-free prefix and any fuel of at least `2·(unordered count) + 1`,
the loop completes, the final ordering enumerates the update's keys exactly
once, the keys are preserved, and every recorded guard constraint is an
equality between two distinct updated variables. -/
theorem depLoop_adequate :
    ∀ (N : Nat) (u : Recurrence.UpdateMap) (ordering : List Nat) (ag : List Rel),
      (Recurrence.keys u).Nodup → ordering.Nodup →
      (∀ x ∈ ordering, x ∈ Recurrence.keys u) →
      2 * (u.length - ordering.length) + 1 ≤ N →
      ∃ (ord' : List Nat) (agΔ : List Rel) (u'' : Recurrence.UpdateMap),
        Recurrence.depLoop N u ordering ordering ag = ⟨ord', ag ++ agΔ, u'', true⟩ ∧
        ord'.Nodup ∧ (∀ v, v ∈ ord' ↔ v ∈ Recurrence.keys u) ∧
        Recurrence.keys u'' = Recurrence.keys u ∧
        (∀ g ∈ agΔ, ∃ t o, g = Rel.mk (Exprn.var t) RelOp.eq (Exprn.var o) ∧
          t ∈ Recurrence.keys u ∧ o ∈ Recurrence.keys u ∧ t ≠ o) := by
  intro N
  induction N using Nat.strong_induction_on with
  | _ N ih =>
    intro u ordering ag hndk hndo hsub hfuel
    by_cases hlen : ordering.length < u.length
    · obtain ⟨m, rfl⟩ : ∃ m, N = m + 1 := ⟨N - 1, by omega⟩
      rw [depLoop_succ, if_pos hlen]
      obtain ⟨Δ, hpass, hΔsub, hΔnd⟩ :=
        depPassGo_spec (Recurrence.keys u) u ordering false hndo
      have hpass' : Recurrence.depPass u ordering ordering =
          (ordering ++ Δ, ordering ++ Δ, false || !Δ.isEmpty) := hpass
      rw [hpass']
      dsimp only
      by_cases hΔe : Δ.isEmpty = true
      · -- no change: break the cycle, then the next pass provably changes
        have hΔnil : Δ = [] := List.isEmpty_iff.mp hΔe
        subst hΔnil
        rw [if_neg (by decide)]
        simp only [List.append_nil]
        cases huf : (Recurrence.keys u).filter (fun v => !ordering.contains v) with
        | nil =>
          exfalso
          have hall : ∀ x ∈ Recurrence.keys u, x ∈ ordering := by
            intro x hx
            by_contra hc
            have hxf : x ∈ (Recurrence.keys u).filter (fun v => !ordering.contains v) :=
              List.mem_filter.mpr ⟨hx, by
                rw [Bool.not_eq_true']
                exact Bool.eq_false_iff.mpr (fun h => hc (List.elem_iff.mp h))⟩
            rw [huf] at hxf
            cases hxf
          have h1 : (Recurrence.keys u).toFinset ⊆ ordering.toFinset := by
            intro x hx
            rw [List.mem_toFinset] at hx ⊢
            exact hall x hx
          have h2 : (Recurrence.keys u).toFinset.card = (Recurrence.keys u).length :=
            List.toFinset_card_of_nodup hndk
          have h3 : ordering.toFinset.card ≤ ordering.length := List.toFinset_card_le ordering
          have h4 : (Recurrence.keys u).length = u.length := List.length_map _ _
          have h5 := Finset.card_le_card h1
          omega
        | cons t others =>
          rw [breakCycle_eq u ordering ag t others huf]
          dsimp only
          have htmem : t ∈ Recurrence.keys u ∧ ¬ ordering.contains t = true := by
            have hmem : t ∈ (Recurrence.keys u).filter (fun v => !ordering.contains v) := by
              rw [huf]; exact List.mem_cons_self t others
            have h2 := List.mem_filter.mp hmem
            refine ⟨h2.1, ?_⟩
            intro hc
            rw [Bool.not_eq_true', Bool.eq_false_iff] at h2
            exact h2.2 hc
          have hofacts : ∀ o ∈ others, o ∈ Recurrence.keys u ∧ ¬ ordering.contains o = true := by
            intro o ho
            have hmem : o ∈ (Recurrence.keys u).filter (fun v => !ordering.contains v) := by
              rw [huf]; exact List.mem_cons_of_mem t ho
            have h2 := List.mem_filter.mp hmem
            refine ⟨h2.1, ?_⟩
            intro hc
            rw [Bool.not_eq_true', Bool.eq_false_iff] at h2
            exact h2.2 hc
          have hndf : (t :: others).Nodup := huf ▸ hndk.filter _
          obtain ⟨m', rfl⟩ : ∃ m', m = m' + 1 := ⟨m - 1, by omega⟩
          rw [depLoop_succ]
          rw [if_pos (by simpa using hlen)]
          -- second pass on the substituted update
          obtain ⟨Δ', hp', hsub', hnd'⟩ :=
            depPassGo_spec
              (Recurrence.keys (u.map (fun p => (p.1, Exprn.subsF
                (fun w => if others.contains w then some (Exprn.var t) else none) p.2))))
              (u.map (fun p => (p.1, Exprn.subsF
                (fun w => if others.contains w then some (Exprn.var t) else none) p.2)))
              ordering false hndo
          obtain ⟨p, hpmem, hpfst⟩ := List.mem_map.mp htmem.1
          have hentry : (t, Exprn.subsF
              (fun w => if others.contains w then some (Exprn.var t) else none) p.2) ∈
              u.map (fun p => (p.1, Exprn.subsF
                (fun w => if others.contains w then some (Exprn.var t) else none) p.2)) :=
            List.mem_map.mpr ⟨p, hpmem, by rw [hpfst]⟩
          have hprem : ∀ ord' : List Nat, (∀ x ∈ ordering, x ∈ ord') →
              Recurrence.depsResolved
                (Recurrence.keys (u.map (fun p => (p.1, Exprn.subsF
                  (fun w => if others.contains w then some (Exprn.var t) else none) p.2))))
                ord' t
                (Exprn.subsF
                  (fun w => if others.contains w then some (Exprn.var t) else none) p.2)
                = true := by
            intro ord' hss
            unfold Recurrence.depsResolved
            rw [List.all_eq_true]
            intro w hw
            rcases Exprn.pvars_subsF _ p.2 w hw with ⟨hwp, hσ⟩ | ⟨v, hv, img, hσ, hwimg⟩
            · have hwo : w ∉ others := by
                intro hmem
                rw [if_pos (List.elem_iff.mpr hmem)] at hσ
                cases hσ
              by_cases hwt : w = t
              · simp [hwt]
              · by_cases hks : w ∈ Recurrence.keys u
                · have hword : ordering.contains w = true := by
                    by_contra hc
                    have hwf : w ∈ (Recurrence.keys u).filter
                        (fun v => !ordering.contains v) :=
                      List.mem_filter.mpr ⟨hks, by
                        rw [Bool.not_eq_true']
                        exact Bool.eq_false_iff.mpr hc⟩
                    rw [huf] at hwf
                    rcases List.mem_cons.mp hwf with rfl | hmo
                    · exact hwt rfl
                    · exact hwo hmo
                  have hword' : ord'.contains w = true :=
                    List.elem_iff.mpr (hss w (List.elem_iff.mp hword))
                  rw [hword']
                  simp
                · have hcf : (Recurrence.keys (u.map (fun p => (p.1, Exprn.subsF
                      (fun w => if others.contains w then some (Exprn.var t) else none)
                      p.2)))).contains w = false := by
                    rw [keys_map_snd]
                    exact Bool.eq_false_iff.mpr (fun hcc => hks (List.elem_iff.mp hcc))
                  rw [hcf]
                  simp
            · have himg : img = Exprn.var t := by
                by_cases hc : others.contains v = true
                · rw [if_pos hc] at hσ
                  injection hσ with hσ'
                  exact hσ'.symm
                · rw [if_neg hc] at hσ
                  cases hσ
              rw [himg] at hwimg
              have hwt : w = t := by simpa [Exprn.pvars] using hwimg
              simp [hwt]
          have hprog := depPassGo_progress
            (Recurrence.keys (u.map (fun p => (p.1, Exprn.subsF
              (fun w => if others.contains w then some (Exprn.var t) else none) p.2))))
            t _ _ ordering ordering false hentry hprem
          rcases hprog with hto | hflag0
          · exact absurd (List.elem_iff.mpr hto) htmem.2
          · have hp'' : Recurrence.depPass
                (u.map (fun p => (p.1, Exprn.subsF
                  (fun w => if others.contains w then some (Exprn.var t) else none) p.2)))
                ordering ordering =
                (ordering ++ Δ', ordering ++ Δ', false || !Δ'.isEmpty) := hp'
            rw [hp'] at hflag0
            dsimp only at hflag0
            rw [hp'']
            dsimp only
            rw [if_pos hflag0]
            have hΔ'len : 1 ≤ Δ'.length := by
              cases Δ' with
              | nil => cases hflag0
              | cons a l => simp
            obtain ⟨ord', agΔ', u'', hres, hh1, hh2, hh3, hh4⟩ :=
              ih m' (by omega)
                (u.map (fun p => (p.1, Exprn.subsF
                  (fun w => if others.contains w then some (Exprn.var t) else none) p.2)))
                (ordering ++ Δ')
                (ag ++ others.map (fun o => Rel.mk (Exprn.var t) RelOp.eq (Exprn.var o)))
                (by rw [keys_map_snd]; exact hndk)
                hnd'
                (by
                  intro x hx
                  rw [keys_map_snd]
                  rcases List.mem_append.mp hx with hx' | hx'
                  · exact hsub x hx'
                  · have := hsub' x hx'
                    rw [show (u.map (fun p => (p.1, Exprn.subsF
                      (fun w => if others.contains w then some (Exprn.var t) else none)
                      p.2))).map Prod.fst = Recurrence.keys (u.map (fun p => (p.1,
                        Exprn.subsF (fun w => if others.contains w then some (Exprn.var t)
                          else none) p.2))) from rfl] at this
                    rw [keys_map_snd] at this
                    exact this)
                (by
                  rw [List.length_map, List.length_append]
                  omega)
            rw [keys_map_snd] at hh2 hh3 hh4
            refine ⟨ord',
              others.map (fun o => Rel.mk (Exprn.var t) RelOp.eq (Exprn.var o)) ++ agΔ',
              u'', ?_, hh1, hh2, hh3, ?_⟩
            · rw [hres]
              simp [List.append_assoc]
            · intro g hg
              rcases List.mem_append.mp hg with hg' | hg'
              · obtain ⟨o, ho, rfl⟩ := List.mem_map.mp hg'
                refine ⟨t, o, rfl, htmem.1, (hofacts o ho).1, ?_⟩
                intro heq
                exact (List.nodup_cons.mp hndf).1 (heq ▸ ho)
              · exact hh4 g hg'
      · -- the pass changed: recurse directly
        have hflag : (false || !Δ.isEmpty) = true := by
          simp [Bool.eq_false_iff.mpr hΔe]
        rw [if_pos hflag]
        have hΔlen : 1 ≤ Δ.length := by
          cases Δ with
          | nil => simp at hΔe
          | cons a l => simp
        obtain ⟨ord', agΔ, u'', hres, hh1, hh2, hh3, hh4⟩ :=
          ih m (by omega) u (ordering ++ Δ) ag hndk hΔnd
            (by
              intro x hx
              rcases List.mem_append.mp hx with hx' | hx'
              · exact hsub x hx'
              · exact hΔsub x hx')
            (by rw [List.length_append]; omega)
        exact ⟨ord', agΔ, u'', hres, hh1, hh2, hh3, hh4⟩
    · obtain ⟨m, rfl⟩ : ∃ m, N = m + 1 := ⟨N - 1, by omega⟩
      rw [depLoop_succ, if_neg hlen]
      refine ⟨ordering, [], u, by simp, hndo, ?_, rfl, by simp⟩
      have hksl : (Recurrence.keys u).length = u.length := List.length_map _ _
      have hsub' : ordering.toFinset ⊆ (Recurrence.keys u).toFinset := by
        intro x hx
        rw [List.mem_toFinset] at hx ⊢
        exact hsub x hx
      have hcard : (Recurrence.keys u).toFinset.card ≤ ordering.toFinset.card := by
        rw [List.toFinset_card_of_nodup hndk, List.toFinset_card_of_nodup hndo]
        omega
      have heq : ordering.toFinset = (Recurrence.keys u).toFinset :=
        Finset.eq_of_subset_of_card_le hsub' hcard
      intro v
      constructor
      · intro hv
        exact hsub v hv
      · intro hv
        have h1 : v ∈ (Recurrence.keys u).toFinset := List.mem_toFinset.mpr hv
        rw [← heq] at h1
        exact List.mem_toFinset.mp h1

/-- A successful `calcIteratedUpdate` carries exactly the `addGuard`
accumulated by `dependencyOrder`. -/
theorem calcIteratedUpdate_addGuard (solve : Recurrence.UpdateSolver)
    (u : Recurrence.UpdateMap) (meter : Exprn) (nu : Recurrence.UpdateMap)
    (st : Recurrence.RecState)
    (h : Recurrence.calcIteratedUpdate solve u meter = some (nu, st)) :
    st.addGuard = (Recurrence.dependencyOrder u).addGuard := by
  unfold Recurrence.calcIteratedUpdate at h
  by_cases hcomp : (Recurrence.dependencyOrder u).complete = true
  · rw [if_pos hcomp] at h
    cases hgo : Recurrence.calcIteratedUpdateGo solve (Recurrence.dependencyOrder u).update
        meter (Recurrence.dependencyOrder u).ordering [] [] with
    | none => simp [hgo] at h
    | some out =>
      obtain ⟨a, b⟩ := out
      simp only [hgo] at h
      cases h
      rfl
  · rw [if_neg hcomp] at h
    cases h

/-- C5: for every update map with distinct keys, `dependencyOrder`
terminates (the loop completes within the fuel `2·|update| + 1`) and
returns an ordering containing every updated variable exactly once; on
cycles it never fails, but records equality constraints between the chosen
representative and the other unresolved variables in `addGuard`; and
`calcIterated` appends exactly these constraints to the accelerated rule's
guard (the original rule value is untouched, as `calcIterated` is a pure
function of it). -/
theorem claim_C5 (u : Recurrence.UpdateMap) (hnd : (Recurrence.keys u).Nodup) :
    (Recurrence.dependencyOrder u).complete = true ∧
    (Recurrence.dependencyOrder u).ordering.Nodup ∧
    (∀ v, v ∈ (Recurrence.dependencyOrder u).ordering ↔ v ∈ Recurrence.keys u) ∧
    (∀ g ∈ (Recurrence.dependencyOrder u).addGuard, ∃ t o,
      g = Rel.mk (Exprn.var t) RelOp.eq (Exprn.var o) ∧ t ∈ Recurrence.keys u ∧
      o ∈ Recurrence.keys u ∧ t ≠ o) ∧
    (∀ (solve : Recurrence.UpdateSolver) (csolve : Recurrence.CostSolver)
        (rule : Recurrence.RRule) (meter : Exprn),
      rule.update = u →
      (Recurrence.calcIterated solve csolve rule meter).1 = true →
      (Recurrence.calcIterated solve csolve rule meter).2.guard =
        rule.guard ++ (Recurrence.dependencyOrder u).addGuard) := by
  obtain ⟨ord', agΔ, u'', hres, h1, h2, h3, h4⟩ :=
    depLoop_adequate (2 * u.length + 1) u [] [] hnd List.nodup_nil (by simp) (by omega)
  have hdef : Recurrence.dependencyOrder u =
      Recurrence.depLoop (2 * u.length + 1) u [] [] [] := rfl
  refine ⟨?_, ?_, ?_, ?_, ?_⟩
  · rw [hdef, hres]
  · rw [hdef, hres]
    exact h1
  · rw [hdef, hres]
    exact h2
  · intro g hg
    rw [hdef, hres] at hg
    exact h4 g (by simpa using hg)
  · intro solve csolve rule meter hupd hsucc
    cases hu : Recurrence.calcIteratedUpdate solve rule.update meter with
    | none =>
      have hfalse : (Recurrence.calcIterated solve csolve rule meter).1 = false := by
        simp [Recurrence.calcIterated, hu]
      rw [hfalse] at hsucc
      cases hsucc
    | some pr =>
      obtain ⟨nu, st⟩ := pr
      cases hc : Recurrence.calcIteratedCost csolve st.knownPre rule.cost meter with
      | none =>
        have hfalse : (Recurrence.calcIterated solve csolve rule meter).1 = false := by
          simp [Recurrence.calcIterated, hu, hc]
        rw [hfalse] at hsucc
        cases hsucc
      | some nc =>
        have hg : (Recurrence.calcIterated solve csolve rule meter).2.guard =
            rule.guard ++ st.addGuard := by
          simp [Recurrence.calcIterated, hu, hc]
        rw [hg, calcIteratedUpdate_addGuard solve rule.update meter nu st hu, hupd]

/-- C5 witness: the theorem applied to the cyclic update
`{x0 ← x1, x1 ← x0}`, on which `dependencyOrder` breaks the cycle by
equating `x1` with the representative `x0`. -/
theorem claim_C5_witness :
    ((Recurrence.keys [(0, Exprn.var 1), (1, Exprn.var 0)]).Nodup) ∧
    ((Recurrence.dependencyOrder [(0, Exprn.var 1), (1, Exprn.var 0)]).complete = true ∧
      (Recurrence.dependencyOrder [(0, Exprn.var 1), (1, Exprn.var 0)]).ordering.Nodup ∧
      (∀ v, v ∈ (Recurrence.dependencyOrder [(0, Exprn.var 1), (1, Exprn.var 0)]).ordering ↔
        v ∈ Recurrence.keys [(0, Exprn.var 1), (1, Exprn.var 0)]) ∧
      (∀ g ∈ (Recurrence.dependencyOrder [(0, Exprn.var 1), (1, Exprn.var 0)]).addGuard,
        ∃ t o, g = Rel.mk (Exprn.var t) RelOp.eq (Exprn.var o) ∧
          t ∈ Recurrence.keys [(0, Exprn.var 1), (1, Exprn.var 0)] ∧
          o ∈ Recurrence.keys [(0, Exprn.var 1), (1, Exprn.var 0)] ∧ t ≠ o) ∧
      (∀ (solve : Recurrence.UpdateSolver) (csolve : Recurrence.CostSolver)
          (rule : Recurrence.RRule) (meter : Exprn),
        rule.update = [(0, Exprn.var 1), (1, Exprn.var 0)] →
        (Recurrence.calcIterated solve csolve rule meter).1 = true →
        (Recurrence.calcIterated solve csolve rule meter).2.guard =
          rule.guard ++
            (Recurrence.dependencyOrder [(0, Exprn.var 1), (1, Exprn.var 0)]).addGuard)) :=
  ⟨by decide, claim_C5 [(0, Exprn.var 1), (1, Exprn.var 0)] (by decide)⟩

/-- C4 witness: the amended theorem applied to `constSolve` and the
one-variable update `{x0 ← 5}`. -/
theorem claim_C4_witness :
    Recurrence.UpdateSolverConformant Recurrence.constSolve ∧
    (∃ acc,
      ((([(0, Exprn.cst 5)] : Recurrence.UpdateMap).find? (fun p => p.1 = 0)).map
          Prod.snd = some (Exprn.cst 5)) ∧
      (((Recurrence.calcIteratedUpdate Recurrence.constSolve [(0, Exprn.cst 5)]
          (Exprn.cst 1)).map Prod.fst) = some [(0, Exprn.cst 5)]) ∧
      ((([(0, Exprn.cst 5)] : Recurrence.UpdateMap).find? (fun p => p.1 = 0)).map
          Prod.snd = some acc) ∧
      ∀ (nv : Int) (σ : Nat → Int), acc.eval nv σ = (Exprn.cst 5).eval nv σ) := by
  refine ⟨constSolve_conformant, ?_⟩
  obtain ⟨acc, hacc, heval⟩ :=
    claim_C4_amended Recurrence.constSolve constSolve_conformant
      [(0, Exprn.cst 5)] 0 [] [(0, Exprn.cst 5)] ⟨[(0, Exprn.cst 5)], []⟩ (Exprn.cst 5)
      (by decide) (by decide) (by decide) (by decide) (by decide)
  exact ⟨acc, by decide, by decide, hacc, heval⟩

end LoAT
